import Mathlib

/-!
Verification of the gomadore markdown HTTP server (main.go) against its
specification.  The Go code is shallowly embedded: Go strings (byte strings
holding URL/file paths) become `List Char`, Go `time.Time` becomes an abstract
`Int` tick, the `map[string]CacheItem` cache becomes an association list with
Go-map semantics, and the nondeterministic map-iteration order used for
eviction becomes an explicit `pick` parameter.  External collaborators that
the spec declares out of scope (the goldmark renderer plus the HTML template,
§6 of the spec) are abstracted as a `render` function parameter; the
filesystem is a function parameter.  Everything else — path cleaning,
traversal containment, cache validity, eviction, sweep, the watcher's
relevance filter and debounce, and the cleaner's defer/recover structure —
is translated from main.go.
-/

/-- Go strings (paths, header values, file contents) are modelled as their
character lists. -/
abbrev GoStr := List Char

/-- Shorthand to write a Go string literal in statements. -/
def gs (s : String) : GoStr := s.toList

/-- Go `strings.HasPrefix s pre` (main.go uses it at line 452 and for watcher
filters at line 600). -/
def startsWith : GoStr → GoStr → Bool
  | _, [] => true
  | [], _ :: _ => false
  | c :: s, d :: rest => decide (c = d) && startsWith s rest

/-- Go `strings.HasSuffix s suf` (main.go lines 359, 374, 381, 600, 614). -/
def endsWith (s suf : GoStr) : Bool :=
  startsWith s.reverse suf.reverse

/-- Go `strings.TrimSuffix s suf` (main.go line 386): drop the suffix when
present, `s[:len(s)-len(suf)]`. -/
def trimSuffix (s suf : GoStr) : GoStr :=
  if endsWith s suf then s.take (s.length - suf.length) else s

/-! ## Path segments

Go's `path.Clean` (and, on Linux, `filepath.Clean`) is the canonical
segment-stack algorithm: split on `/`, drop empty segments and `.`, let `..`
pop (when rooted) or accumulate (when relative), and re-join.  We implement
splitting structurally so that every lemma is a plain list induction. -/

/-- Accumulating splitter: maximal nonempty runs of non-`/` characters.
`cur` holds the reversed characters of the segment being read. -/
def segsAux : GoStr → GoStr → List GoStr
  | [], cur => if cur = [] then [] else [cur.reverse]
  | c :: cs, cur =>
    if c = '/' then
      if cur = [] then segsAux cs [] else cur.reverse :: segsAux cs []
    else segsAux cs (c :: cur)

/-- The `/`-separated nonempty segments of a path string. -/
def segsOf (s : GoStr) : List GoStr := segsAux s []

/-- Join segments with `/` (no leading or trailing separator). -/
def joinSegs : List GoStr → GoStr
  | [] => []
  | [s] => s
  | s :: t :: rest => s ++ '/' :: joinSegs (t :: rest)

/-- One step of Go `path.Clean`'s element processing (the `lazybuf` loop of
path.go): `.` is dropped, `..` pops the stack (rooted) or accumulates
(relative), anything else is pushed.  The stack is kept reversed. -/
def resolveStep (rooted : Bool) (stack : List GoStr) (seg : GoStr) : List GoStr :=
  if seg = gs "." then stack
  else if seg = gs ".." then
    match stack with
    | [] => if rooted then [] else [gs ".."]
    | top :: rest => if top = gs ".." then gs ".." :: top :: rest else rest
  else seg :: stack

/-- Resolve `.` and `..` in a segment list, as Go `path.Clean` does. -/
def resolveSegs (rooted : Bool) (l : List GoStr) : List GoStr :=
  (l.foldl (resolveStep rooted) []).reverse

/-- Go `path.Clean` (path.go), the lexical cleaning used at main.go lines 356
and 389: collapse `//`, drop `.`, resolve `..`; empty input yields `.`;
a rooted input stays rooted and a relative all-eliminated input yields `.`. -/
def goPathClean (p : GoStr) : GoStr :=
  if p = [] then gs "."
  else if p.head? = some '/' then
    '/' :: joinSegs (resolveSegs true (segsOf p))
  else
    let r := resolveSegs false (segsOf p)
    if r = [] then gs "." else joinSegs r

/-- main.go lines 356-361: clean the request path and preserve a trailing
slash when the original had one and the result is not the bare root. -/
def normalizeReqPath (p : GoStr) : GoStr :=
  let cleaned := goPathClean p
  if endsWith p (gs "/") = true ∧ cleaned ≠ gs "/" then cleaned ++ gs "/"
  else cleaned

/-- Go `filepath.Base` (used by the watcher at main.go line 599); Linux
semantics: strip trailing separators, keep the last element, `""` gives `.`
and an all-separator path gives `/`. -/
def filepathBase (p : GoStr) : GoStr :=
  if p = [] then gs "."
  else
    let q := (p.reverse.dropWhile (· = '/')).reverse
    if q = [] then gs "/"
    else (q.reverse.takeWhile (· ≠ '/')).reverse

/-- Go `filepath.Join a b` on Linux (main.go line 433): join the nonempty
parts with `/` and clean.  `filepath.FromSlash` is the identity on Linux. -/
def filepathJoin (a b : GoStr) : GoStr :=
  if a = [] then (if b = [] then [] else goPathClean b)
  else goPathClean (a ++ '/' :: b)

/-- Go `filepath.Abs` (main.go lines 436, 441), with the process working
directory passed explicitly: an absolute path is cleaned, a relative one is
joined onto `cwd`.  (`os.Getwd` failure, the only error source, is not
modelled; the handler's corresponding 500 branch is therefore unreachable
here.) -/
def filepathAbs (cwd p : GoStr) : GoStr :=
  if p.head? = some '/' then goPathClean p else filepathJoin cwd p

/-- Segment-level core of Go `filepath.Rel` (path/filepath/path.go): walk off
the common prefix; if the first differing base element is `..` the paths
cannot be related (`none`); otherwise climb with one `..` per remaining base
element and descend into the target remainder. -/
def relSegs : List GoStr → List GoStr → Option (List GoStr)
  | [], ts => some ts
  | b :: bs, [] =>
    if b = gs ".." then none
    else some (List.replicate (bs.length + 1) (gs ".."))
  | b :: bs, t :: ts =>
    if b = t then relSegs bs ts
    else if b = gs ".." then none
    else some (List.replicate (bs.length + 1) (gs "..") ++ t :: ts)

/-- Go `filepath.Rel base targ` on Linux (main.go line 447): clean both, a
cleaned-equal pair gives `.`, mixing absolute with relative is an error, a
cleaned base of `.` contributes no elements (Go blanks only the base, not the
target), otherwise compare element-wise via `relSegs`. -/
def filepathRel (basep targp : GoStr) : Option GoStr :=
  let b := goPathClean basep
  let t := goPathClean targp
  if b = t then some (gs ".")
  else if decide (b.head? = some '/') ≠ decide (t.head? = some '/') then none
  else
    match relSegs (if b = gs "." then [] else segsOf b) (segsOf t) with
    | none => none
    | some rs => some (joinSegs rs)

/-- The traversal test of main.go line 452:
`rel == ".." || strings.HasPrefix(rel, "../")`. -/
def relEscape (rel : GoStr) : Bool :=
  decide (rel = gs "..") || startsWith rel (gs "../")

/-! ## Cache store

main.go's `Cache` is `map[string]CacheItem` under an RWMutex.  The map is
modelled as an association list with distinct keys maintained by
construction (insert = delete-then-cons); Go map iteration order is
irrelevant to lookup/insert/delete, and the one place the code ranges over
the map (eviction) takes the chosen key as an explicit `pick` parameter. -/

/-- main.go lines 67-70. -/
structure CacheItem where
  Content : GoStr
  Expires : Int
deriving DecidableEq, Repr, Inhabited

abbrev CacheMap := List (GoStr × CacheItem)

/-- Go map lookup `items[k]`. -/
def mapGet : CacheMap → GoStr → Option CacheItem
  | [], _ => none
  | (k, v) :: rest, key => if k = key then some v else mapGet rest key

/-- Go map `delete(items, k)`. -/
def mapDelete (m : CacheMap) (key : GoStr) : CacheMap :=
  m.filter (fun kv => kv.1 ≠ key)

/-- Go map assignment `items[k] = v` (replacing any previous binding). -/
def mapInsert (m : CacheMap) (key : GoStr) (v : CacheItem) : CacheMap :=
  (key, v) :: mapDelete m key

/-- Association lists reachable through the operations above have pairwise
distinct keys; theorems carry this as a hypothesis where lengths matter. -/
def KeysNodup (m : CacheMap) : Prop := (m.map Prod.fst).Nodup

/-- main.go lines 406-409: a found entry is checked against the clock only
when `CacheLimit > 0`; otherwise `found` alone decides. -/
def isCacheValid (cacheLimit now : Int) (item? : Option CacheItem) : Bool :=
  match item? with
  | none => false
  | some item => if cacheLimit > 0 then decide (now < item.Expires) else true

/-- main.go lines 518-536 (the write-locked save-to-cache block): when the
item bound `MaxCacheItems` is positive, the store is at or above it, and the
key is new, one existing entry — `pick m`, standing for Go's random
`for k := range` — is deleted first; then the key is bound to a fresh item
expiring at `now + CacheLimit` seconds. -/
def cachePut (cacheLimit maxCacheItems now : Int) (pick : CacheMap → GoStr)
    (m : CacheMap) (key body : GoStr) : CacheMap :=
  mapInsert
    (if maxCacheItems > 0 ∧ (m.length : Int) ≥ maxCacheItems ∧ mapGet m key = none
     then mapDelete m (pick m) else m)
    key ⟨body, now + cacheLimit⟩

/-- Lock operations on the cache's RWMutex, recorded as a trace so that the
two-phase structure of `cleanup` is visible in the model. -/
inductive LockEv | rlock | runlock | lock | unlock
deriving DecidableEq, Repr

/-- main.go lines 671-698 (`cleanup`): under the read lock collect the keys
whose `Expires` lies strictly in the past (`now.After`), release it, and only
when there is something to delete take the write lock and delete exactly the
collected keys. -/
def cleanup (now : Int) (m : CacheMap) : CacheMap × List LockEv :=
  let keysToDelete := (m.filter (fun kv => decide (now > kv.2.Expires))).map Prod.fst
  if keysToDelete = [] then (m, [.rlock, .runlock])
  else (keysToDelete.foldl mapDelete m, [.rlock, .runlock, .lock, .unlock])

/-! ## Request handler

main.go lines 352-545.  The goldmark parse/first-H1/render plus template
execution steps (lines 469-513) are the spec's external renderer boundary
(§6) and enter as one abstract `render : GoStr → Option GoStr`, `none`
standing for a render or template failure (both 500 in the code).  Reading a
file is `fs : GoStr → ReadResult`.  `cwd` is the process working directory
consumed by `filepath.Abs`. -/

/-- Outcome of `os.ReadFile`. -/
inductive ReadResult
  | ok (content : GoStr)
  | notExist
  | err
deriving DecidableEq

/-- The configuration fields `handleRequest` consumes. -/
structure SrvConfig where
  markdownRootDir : GoStr
  strictHtmlUrl : Bool
  cacheLimit : Int
  maxCacheItems : Int

/-- What the handler writes back: a 301 with Location, a 404, a 500, or a
200 carrying the `X-Cache` and `Cache-Control` header values and the body. -/
inductive HResult where
  | redirect (location : GoStr)
  | notFound
  | internalError
  | serve (xCache cacheControl body : GoStr)
deriving DecidableEq

/-- Handler outcome plus the cache map after the request. -/
structure HOut where
  result : HResult
  cache : CacheMap
deriving DecidableEq

/-- main.go lines 380-392: append the default document `index` to a
directory-style path, strip a `.html` suffix, re-clean, map a bare `.` to
`/index`.  The result is the cache key and root-relative source path. -/
def reqPathOf (p : GoStr) : GoStr :=
  let rawPath := if endsWith p (gs "/") = true then p ++ gs "index" else p
  let rawPath := trimSuffix rawPath (gs ".html")
  let reqPath := goPathClean rawPath
  if reqPath = gs "." then gs "/index" else reqPath

/-- The absolute root `filepath.Abs(MarkdownRootDir)` of main.go line 436. -/
def rootAbs (cwd root : GoStr) : GoStr := filepathAbs cwd root

/-- The absolute on-disk candidate of main.go lines 433-441:
`filepath.Abs(filepath.Join(root, reqPath) + ".md")`. -/
def candidateAbs (cwd root key : GoStr) : GoStr :=
  filepathAbs cwd (filepathJoin root key ++ gs ".md")

/-- Browser cache header on a cache hit, main.go lines 415-421: the TTL when
finite, else a fixed day. -/
def cacheControlHit (cacheLimit : Int) : GoStr :=
  if cacheLimit > 0 then gs "max-age=" ++ (toString cacheLimit).toList
  else gs "max-age=86400"

/-- Browser cache header on a miss, main.go line 539: always the raw
`CacheLimit`, with no indefinite-mode branch. -/
def cacheControlMiss (cacheLimit : Int) : GoStr :=
  gs "max-age=" ++ (toString cacheLimit).toList

/-- main.go lines 398-545, after the redirect and strict checks: cache
lookup and validity (served as HIT), else traversal containment, file read,
render, save to cache (served as MISS). -/
def serveDoc (cfg : SrvConfig) (cwd : GoStr) (fs : GoStr → ReadResult)
    (render : GoStr → Option GoStr) (pick : CacheMap → GoStr)
    (now : Int) (cache : CacheMap) (reqPath : GoStr) : HOut :=
  if isCacheValid cfg.cacheLimit now (mapGet cache reqPath) = true then
    ⟨.serve (gs "HIT") (cacheControlHit cfg.cacheLimit)
      (((mapGet cache reqPath).map CacheItem.Content).getD []), cache⟩
  else
    match filepathRel (rootAbs cwd cfg.markdownRootDir)
        (candidateAbs cwd cfg.markdownRootDir reqPath) with
    | none => ⟨.internalError, cache⟩
    | some rel =>
      if relEscape rel = true then ⟨.notFound, cache⟩
      else
        match fs (candidateAbs cwd cfg.markdownRootDir reqPath) with
        | .notExist => ⟨.notFound, cache⟩
        | .err => ⟨.internalError, cache⟩
        | .ok mdContent =>
          match render mdContent with
          | none => ⟨.internalError, cache⟩
          | some respBody =>
            ⟨.serve (gs "MISS") (cacheControlMiss cfg.cacheLimit) respBody,
             cachePut cfg.cacheLimit cfg.maxCacheItems now pick cache reqPath respBody⟩

/-- main.go lines 352-545 (`handleRequest`): redirect non-canonical paths
(lines 354-368), enforce the strict `.html` suffix (lines 372-378), then
serve the document keyed by `reqPathOf`. -/
def handleRequest (cfg : SrvConfig) (cwd : GoStr) (fs : GoStr → ReadResult)
    (render : GoStr → Option GoStr) (pick : CacheMap → GoStr)
    (now : Int) (cache : CacheMap) (urlPath : GoStr) : HOut :=
  if normalizeReqPath urlPath ≠ urlPath then ⟨.redirect (normalizeReqPath urlPath), cache⟩
  else if cfg.strictHtmlUrl = true ∧ endsWith urlPath (gs ".html") = false then
    ⟨.notFound, cache⟩
  else serveDoc cfg cwd fs render pick now cache (reqPathOf urlPath)

/-! ## File watcher (hot reload), main.go lines 549-641 -/

/-- fsnotify operations (an event carries a set of them). -/
inductive FsOp | create | write | remove | rename | chmod
deriving DecidableEq, Repr

/-- An fsnotify event: the affected path and its operation flags. -/
structure FsEvent where
  Name : GoStr
  Op : List FsOp
deriving DecidableEq, Repr

/-- `event.Has(op)`. -/
def eventHas (e : FsEvent) (op : FsOp) : Bool := decide (op ∈ e.Op)

/-- main.go lines 599-601: hidden files (base name starting with a dot) and
editor backups (name ending in a tilde) are skipped outright. -/
def eventIgnored (e : FsEvent) : Bool :=
  let filename := filepathBase e.Name
  startsWith filename (gs ".") || endsWith filename (gs "~")

/-- main.go lines 612-618 combined with the line-600 `continue`: the event
(re)arms the debounce timer exactly when it is not ignored and either names a
`.md` path — under any operation — or carries a Rename or Remove flag. -/
def shouldClear (e : FsEvent) : Bool :=
  !eventIgnored e &&
    (endsWith e.Name (gs ".md") || eventHas e .rename || eventHas e .remove)

/-- What the spec's Invalidator section claims is relevant: a `.md` path only
on Write or Create, or any Rename/Remove.  Stated from the spec's words for
comparison with `shouldClear`, which is translated from the code. -/
def relevantSpec (e : FsEvent) : Bool :=
  !eventIgnored e &&
    ((endsWith e.Name (gs ".md") && (eventHas e .write || eventHas e .create))
      || eventHas e .rename || eventHas e .remove)

/-- The debounce window, main.go line 586 (100ms), in the same abstract time
unit as event arrival stamps. -/
def debounceDuration : Int := 100

/-- Watcher-loop state: the pending `time.AfterFunc` deadline (if armed), how
many times the clear callback has run, and the shared cache it clears. -/
structure WState where
  timer : Option Int
  clears : Nat
  cache : CacheMap
deriving DecidableEq

/-- A pending `time.AfterFunc` whose deadline has been reached by time `t`
has already fired asynchronously, running the clear callback of main.go
lines 626-631 (`clear(s.cache.items)`). -/
def stepFire (st : WState) (t : Int) : WState :=
  match st.timer with
  | some d => if d ≤ t then ⟨none, st.clears + 1, []⟩ else st
  | none => st

/-- Processing one event at arrival time `t`, main.go lines 594-632: any
reached timer deadline has fired (`stepFire`); then a relevant event stops
the pending timer and arms a fresh one `debounceDuration` from now.  Ignored
and irrelevant events leave the timer alone. -/
def stepEvent (st : WState) (t : Int) (e : FsEvent) : WState :=
  if shouldClear e = true then
    ⟨some (t + debounceDuration), (stepFire st t).clears, (stepFire st t).cache⟩
  else stepFire st t

/-- Once the event stream goes quiet, a still-armed timer fires unreset and
performs the clear. -/
def finishWatch (st : WState) : WState :=
  match st.timer with
  | some _ => ⟨none, st.clears + 1, []⟩
  | none => st

/-- Run the watcher loop over a finite stream of time-stamped events starting
from an idle timer and the given cache. -/
def runWatch (init : CacheMap) (evts : List (Int × FsEvent)) : WState :=
  finishWatch (evts.foldl (fun st te => stepEvent st te.1 te.2) ⟨none, 0, init⟩)

/-- Arrival-time discipline: each event follows the previous one by a
nonnegative gap of less than the debounce window. -/
def timesOk : Int → List (Int × FsEvent) → Prop
  | _, [] => True
  | tprev, (t, _) :: rest => tprev ≤ t ∧ t - tprev < debounceDuration ∧ timesOk t rest

/-! ## Cache cleaner (reaper), main.go lines 646-668

`startCacheCleaner` installs `defer { recover ... }` at function entry (lines
648-652) and then loops on a ticker.  Per Go semantics a panic inside
`s.cleanup()` unwinds out of the loop into that deferred recover: the panic
is logged, the process survives — and the function returns, so no later tick
is processed.  The loop is modelled over the finite stream of select results
it consumes. -/

/-- One select result: the cancellation context fired, or a ticker tick whose
`cleanup` call either succeeds or panics. -/
inductive TickSig
  | done
  | tick (panics : Bool)
deriving DecidableEq, Repr

/-- Observable outcome of the cleaner goroutine: sweeps completed, whether
the deferred recover caught a panic, and whether the process crashed. -/
structure CleanerOut where
  sweeps : Nat
  recovered : Bool
  processCrashed : Bool
deriving DecidableEq, Repr

/-- The `for { select ... } }` loop of main.go lines 658-667, with the
function-scoped deferred recover of lines 648-652: `ctx.Done` returns,
a successful cleanup tick loops, and a panicking cleanup unwinds to the
recover (logged, process intact, function returns). -/
def cleanerLoop : List TickSig → Nat → CleanerOut
  | [], n => ⟨n, false, false⟩
  | .done :: _, n => ⟨n, false, false⟩
  | .tick p :: rest, n =>
    if p then ⟨n, true, false⟩
    else cleanerLoop rest (n + 1)

/-- Run the cleaner goroutine over a finite stream of select results. -/
def runCleaner (sigs : List TickSig) : CleanerOut := cleanerLoop sigs 0

/-! ## Derived notions used by the theorems below -/

/-- Segments suitable as `joinSegs` input: nonempty and slash-free. -/
def GoodSegs (l : List GoStr) : Prop := ∀ x ∈ l, x ≠ [] ∧ '/' ∉ x

/-- Segments of a cleaned rooted path: additionally free of `.` and `..`. -/
def CleanSegs (l : List GoStr) : Prop :=
  ∀ x ∈ l, x ≠ [] ∧ '/' ∉ x ∧ x ≠ gs "." ∧ x ≠ gs ".."

/-- A string in canonical absolute form: rooted, fixed by `path.Clean`, and
with clean segments.  `filepath.Abs` always produces such a string. -/
def CleanAbs (p : GoStr) : Prop :=
  p.head? = some '/' ∧ goPathClean p = p ∧ CleanSegs (segsOf p)

/-- A doubled separator `//` occurs somewhere in the string. -/
def hasDoubleSlash : GoStr → Bool
  | a :: b :: rest => (decide (a = '/') && decide (b = '/')) || hasDoubleSlash (b :: rest)
  | _ => false

/-- A `..` path segment occurs somewhere in the string. -/
def hasDotDotSeg (p : GoStr) : Prop := gs ".." ∈ segsOf p

/-- A sequence of handler cache saves, each at its own time: folding
`cachePut` over `(now, key, body)` triples from a starting store. -/
def applyPuts (cacheLimit maxCacheItems : Int) (pick : CacheMap → GoStr) :
    CacheMap → List (Int × GoStr × GoStr) → CacheMap
  | m, [] => m
  | m, (now, key, body) :: rest =>
    applyPuts cacheLimit maxCacheItems pick
      (cachePut cacheLimit maxCacheItems now pick m key body) rest


/-! ## String lemmas -/

theorem startsWith_iff {s pre : GoStr} :
    startsWith s pre = true ↔ ∃ t, s = pre ++ t := by
  induction pre generalizing s with
  | nil => simp [startsWith]
  | cons d rest ih =>
    cases s with
    | nil => simp [startsWith]
    | cons c s =>
      simp only [startsWith, Bool.and_eq_true, decide_eq_true_eq, ih]
      constructor
      · rintro ⟨rfl, t, rfl⟩
        exact ⟨t, rfl⟩
      · rintro ⟨t, h⟩
        cases h
        exact ⟨rfl, t, rfl⟩

theorem endsWith_iff {s suf : GoStr} :
    endsWith s suf = true ↔ ∃ t, s = t ++ suf := by
  unfold endsWith
  rw [startsWith_iff]
  constructor
  · rintro ⟨t, h⟩
    refine ⟨t.reverse, ?_⟩
    have := congrArg List.reverse h
    simpa using this
  · rintro ⟨t, rfl⟩
    exact ⟨t.reverse, by simp⟩

theorem endsWith_single {s : GoStr} {c : Char} :
    endsWith s [c] = true ↔ s.getLast? = some c := by
  rw [endsWith_iff]
  constructor
  · rintro ⟨t, rfl⟩
    simp [List.getLast?_append]
  · intro h
    rcases s.eq_nil_or_concat with rfl | ⟨t, d, rfl⟩
    · simp at h
    · simp [List.getLast?_append] at h
      exact ⟨t, by simp [h]⟩

theorem not_endsWith_html_of_slash {p : GoStr} (h : endsWith p (gs "/") = true) :
    endsWith p (gs ".html") = false := by
  have h1 : p.getLast? = some '/' := endsWith_single.mp h
  by_contra hc
  have h2 : endsWith p (gs ".html") = true := by
    revert hc; cases endsWith p (gs ".html") <;> simp
  rcases endsWith_iff.mp h2 with ⟨t, rfl⟩
  rw [List.getLast?_append] at h1
  simp [gs] at h1

theorem trimSuffix_append {t suf : GoStr} :
    trimSuffix (t ++ suf) suf = t := by
  have he : endsWith (t ++ suf) suf = true := endsWith_iff.mpr ⟨t, rfl⟩
  simp only [trimSuffix, he, if_true, List.length_append]
  have : t.length + suf.length - suf.length = t.length := by omega
  rw [this, List.take_left]

/-! ## Segment lemmas -/

theorem GoodSegs.of_clean {l : List GoStr} (h : CleanSegs l) : GoodSegs l :=
  fun x hx => ⟨(h x hx).1, (h x hx).2.1⟩

theorem segsAux_append_slash (s : GoStr) :
    ∀ cur, segsAux (s ++ ['/']) cur = segsAux s cur := by
  induction s with
  | nil =>
    intro cur
    by_cases h : cur = [] <;> simp [segsAux, h]
  | cons c cs ih =>
    intro cur
    by_cases h : c = '/' <;> by_cases h2 : cur = [] <;>
      simp [segsAux, h, h2, ih]

theorem segsOf_append_slash (s : GoStr) : segsOf (s ++ gs "/") = segsOf s :=
  segsAux_append_slash s []

theorem segsOf_slash_cons (s : GoStr) : segsOf ('/' :: s) = segsOf s := by
  simp [segsOf, segsAux]

theorem segsAux_run {s : GoStr} (hs : '/' ∉ s) :
    ∀ (r cur : GoStr), segsAux (s ++ r) cur = segsAux r (s.reverse ++ cur) := by
  induction s with
  | nil => intro r cur; simp
  | cons c cs ih =>
    intro r cur
    have hc : c ≠ '/' := fun h => hs (h ▸ List.mem_cons_self c cs)
    have hcs : '/' ∉ cs := fun h => hs (List.mem_cons_of_mem c h)
    have harr : (c :: cs).reverse ++ cur = cs.reverse ++ (c :: cur) := by simp
    rw [List.cons_append, segsAux, if_neg hc, ih hcs, harr]

theorem segsOf_joinSegs {l : List GoStr} (h : GoodSegs l) :
    segsOf (joinSegs l) = l := by
  induction l with
  | nil => simp [joinSegs, segsOf, segsAux]
  | cons s rest ih =>
    obtain ⟨hs, hns⟩ := h s (List.mem_cons_self s rest)
    have hrest : GoodSegs rest := fun x hx => h x (List.mem_cons_of_mem s hx)
    cases rest with
    | nil =>
      show segsOf (joinSegs [s]) = [s]
      have : joinSegs [s] = s ++ [] := by simp [joinSegs]
      rw [this, segsOf, segsAux_run hns]
      have hsr : s.reverse ≠ [] := by simpa using hs
      simp [segsAux, hsr]
    | cons t rest2 =>
      show segsOf (s ++ '/' :: joinSegs (t :: rest2)) = s :: t :: rest2
      rw [segsOf, segsAux_run hns, List.append_nil]
      have hsr : s.reverse ≠ [] := by simpa using hs
      rw [segsAux, if_pos rfl, if_neg hsr, List.reverse_reverse]
      rw [← segsOf, ih hrest]

theorem segsOf_good (s : GoStr) : GoodSegs (segsOf s) := by
  suffices h : ∀ (t cur : GoStr), '/' ∉ cur → GoodSegs (segsAux t cur) from h s [] (by simp)
  intro t
  induction t with
  | nil =>
    intro cur hcur
    by_cases h : cur = []
    · simp [segsAux, h, GoodSegs]
    · intro x hx
      simp only [segsAux, if_neg h, List.mem_singleton] at hx
      subst hx
      exact ⟨by simpa using h, by simpa using hcur⟩
  | cons c cs ih =>
    intro cur hcur
    by_cases hc : c = '/'
    · by_cases h2 : cur = []
      · simpa [segsAux, hc, h2] using ih [] (by simp)
      · intro x hx
        rw [segsAux, if_pos hc, if_neg h2] at hx
        rcases List.mem_cons.mp hx with heq | hmem
        · subst heq
          exact ⟨by simpa using h2, by simpa using hcur⟩
        · exact ih [] (by simp) x hmem
    · intro x hx
      simp only [segsAux, if_neg hc] at hx
      have : '/' ∉ c :: cur := by
        intro hmem
        rcases List.mem_cons.mp hmem with h | h
        · exact hc h.symm
        · exact hcur h
      exact ih (c :: cur) this x hx

/-! ## Clean-path lemmas -/

theorem resolveSegs_clean {l : List GoStr} (h : GoodSegs l) :
    CleanSegs (resolveSegs true l) := by
  suffices haux : ∀ (t : List GoStr), GoodSegs t → ∀ stack, CleanSegs stack →
      CleanSegs (t.foldl (resolveStep true) stack) by
    intro x hx
    simp only [resolveSegs, List.mem_reverse] at hx
    exact haux l h [] (by intro x hx; simp at hx) x hx
  intro t
  induction t with
  | nil => intro _ stack hstack; exact hstack
  | cons seg rest ih =>
    intro ht stack hstack
    have hseg := ht seg (List.mem_cons_self seg rest)
    have hrest : GoodSegs rest := fun x hx => ht x (List.mem_cons_of_mem seg hx)
    refine ih hrest (resolveStep true stack seg) ?_
    unfold resolveStep
    by_cases h1 : seg = gs "."
    · simpa [h1] using hstack
    · by_cases h2 : seg = gs ".."
      · simp only [if_neg h1, if_pos h2]
        cases stack with
        | nil => intro x hx; simp at hx
        | cons top srest =>
          have htop : top ≠ gs ".." :=
            (hstack top (List.mem_cons_self top srest)).2.2.2
          simp only [if_neg htop]
          exact fun x hx => hstack x (List.mem_cons_of_mem top hx)
      · simp only [if_neg h1, if_neg h2]
        intro x hx
        rcases List.mem_cons.mp hx with heq | hmem
        · subst heq; exact ⟨hseg.1, hseg.2, h1, h2⟩
        · exact hstack x hmem

theorem resolveSegs_id {rooted : Bool} {l : List GoStr} (h : CleanSegs l) :
    resolveSegs rooted l = l := by
  suffices haux : ∀ (t : List GoStr), CleanSegs t → ∀ stack,
      t.foldl (resolveStep rooted) stack = t.reverse ++ stack by
    unfold resolveSegs
    rw [haux l h []]
    simp
  intro t
  induction t with
  | nil => intro _ stack; simp
  | cons seg rest ih =>
    intro ht stack
    have hseg := ht seg (List.mem_cons_self seg rest)
    have hrest : CleanSegs rest := fun x hx => ht x (List.mem_cons_of_mem seg hx)
    have hstep : resolveStep rooted stack seg = seg :: stack := by
      unfold resolveStep
      rw [if_neg hseg.2.2.1, if_neg hseg.2.2.2]
    rw [List.foldl_cons, hstep, ih hrest, List.reverse_cons, List.append_assoc]
    rfl

theorem goPathClean_rooted {p : GoStr} (hp : p.head? = some '/') :
    goPathClean p = '/' :: joinSegs (resolveSegs true (segsOf p)) := by
  have hne : p ≠ [] := by intro h; subst h; simp at hp
  unfold goPathClean
  rw [if_neg hne, if_pos hp]

theorem cleanAbs_goPathClean {p : GoStr} (hp : p.head? = some '/') :
    CleanAbs (goPathClean p) := by
  rw [goPathClean_rooted hp]
  set r := resolveSegs true (segsOf p) with hr
  have hclean : CleanSegs r := resolveSegs_clean (segsOf_good p)
  have hsegs : segsOf ('/' :: joinSegs r) = r := by
    rw [segsOf_slash_cons, segsOf_joinSegs (GoodSegs.of_clean hclean)]
  refine ⟨rfl, ?_, by rw [hsegs]; exact hclean⟩
  rw [goPathClean_rooted (by rfl), hsegs, resolveSegs_id hclean]

theorem cleanAbs_filepathAbs {cwd p : GoStr} (hcwd : cwd.head? = some '/') :
    CleanAbs (filepathAbs cwd p) := by
  have hcne : cwd ≠ [] := by intro h; subst h; simp at hcwd
  unfold filepathAbs
  by_cases hp : p.head? = some '/'
  · rw [if_pos hp]; exact cleanAbs_goPathClean hp
  · rw [if_neg hp]
    unfold filepathJoin
    rw [if_neg hcne]
    refine cleanAbs_goPathClean ?_
    cases cwd with
    | nil => simp at hcwd
    | cons c rest => simpa using hcwd

theorem cleanAbs_repr {b : GoStr} (hb : CleanAbs b) :
    b = '/' :: joinSegs (segsOf b) := by
  conv_lhs => rw [← hb.2.1]
  rw [goPathClean_rooted hb.1, resolveSegs_id hb.2.2]

theorem cleanAbs_ext {b t : GoStr} (hb : CleanAbs b) (ht : CleanAbs t)
    (h : segsOf b = segsOf t) : b = t := by
  rw [cleanAbs_repr hb, cleanAbs_repr ht, h]

theorem cleanAbs_ne_dot {b : GoStr} (hb : CleanAbs b) : b ≠ gs "." := by
  intro h
  have := hb.1
  rw [h] at this
  simp [gs] at this

/-! ## Doubled-separator freedom and normalization properties -/

theorem hasDoubleSlash_of_noslash {s : GoStr} (h : '/' ∉ s) :
    hasDoubleSlash s = false := by
  induction s with
  | nil => rfl
  | cons a rest ih =>
    have ha : a ≠ '/' := fun hh => h (hh ▸ List.mem_cons_self a rest)
    have hrest : '/' ∉ rest := fun hh => h (List.mem_cons_of_mem a hh)
    cases rest with
    | nil => rfl
    | cons b r2 =>
      show ((decide (a = '/') && decide (b = '/')) || hasDoubleSlash (b :: r2)) = false
      rw [ih hrest]
      simp [ha]

theorem joinSegs_ne_nil {l : List GoStr} (h : GoodSegs l) (hne : l ≠ []) :
    joinSegs l ≠ [] := by
  cases l with
  | nil => exact absurd rfl hne
  | cons s rest =>
    have hs := (h s (List.mem_cons_self s rest)).1
    cases rest with
    | nil => simpa [joinSegs] using hs
    | cons t r2 =>
      show s ++ '/' :: joinSegs (t :: r2) ≠ []
      simp

theorem joinSegs_head {l : List GoStr} (h : GoodSegs l) :
    (joinSegs l).head? ≠ some '/' := by
  cases l with
  | nil => simp [joinSegs]
  | cons s rest =>
    obtain ⟨hs, hns⟩ := h s (List.mem_cons_self s rest)
    cases s with
    | nil => exact absurd rfl hs
    | cons c cs =>
      have hc : c ≠ '/' := fun hh => hns (hh ▸ List.mem_cons_self c cs)
      cases rest with
      | nil => simpa [joinSegs] using hc
      | cons t r2 =>
        show ((c :: cs) ++ '/' :: joinSegs (t :: r2)).head? ≠ some '/'
        simpa using hc

theorem joinSegs_last {l : List GoStr} (h : GoodSegs l) :
    (joinSegs l).getLast? ≠ some '/' := by
  induction l with
  | nil => simp [joinSegs]
  | cons s rest ih =>
    obtain ⟨hs, hns⟩ := h s (List.mem_cons_self s rest)
    have hrest : GoodSegs rest := fun x hx => h x (List.mem_cons_of_mem s hx)
    cases rest with
    | nil =>
      show (joinSegs [s]).getLast? ≠ some '/'
      intro hcon
      have : '/' ∈ s := by
        have := List.mem_of_mem_getLast? hcon
        simpa [joinSegs] using this
      exact hns this
    | cons t r2 =>
      show ((s ++ '/' :: joinSegs (t :: r2)).getLast? ≠ some '/')
      have hjoin : joinSegs (t :: r2) ≠ [] :=
        joinSegs_ne_nil hrest (by simp)
      rw [List.getLast?_append]
      have h2 : ('/' :: joinSegs (t :: r2)).getLast? = (joinSegs (t :: r2)).getLast? := by
        cases hj : joinSegs (t :: r2) with
        | nil => exact absurd hj hjoin
        | cons x xs => simp [List.getLast?_cons_cons]
      rw [h2]
      intro hcon
      rw [Option.or_eq_some] at hcon
      rcases hcon with h3 | h3
      · exact ih hrest h3
      · exact hns (List.mem_of_mem_getLast? h3.2)

theorem hasDoubleSlash_seg_append {s r : GoStr} (hs : '/' ∉ s)
    (hr : hasDoubleSlash ('/' :: r) = false) :
    hasDoubleSlash (s ++ '/' :: r) = false := by
  induction s with
  | nil => simpa using hr
  | cons c cs ih =>
    have hc : c ≠ '/' := fun hh => hs (hh ▸ List.mem_cons_self c cs)
    have hcs : '/' ∉ cs := fun hh => hs (List.mem_cons_of_mem c hh)
    cases hcase : cs ++ '/' :: r with
    | nil => simp at hcase
    | cons b r2 =>
      rw [List.cons_append, hcase]
      show ((decide (c = '/') && decide (b = '/')) || hasDoubleSlash (b :: r2)) = false
      rw [← hcase, ih hcs]
      simp [hc]

theorem hasDoubleSlash_joinSegs {l : List GoStr} (h : GoodSegs l) :
    hasDoubleSlash (joinSegs l) = false := by
  induction l with
  | nil => rfl
  | cons s rest ih =>
    obtain ⟨hs, hns⟩ := h s (List.mem_cons_self s rest)
    have hrest : GoodSegs rest := fun x hx => h x (List.mem_cons_of_mem s hx)
    cases rest with
    | nil =>
      show hasDoubleSlash (joinSegs [s]) = false
      have : joinSegs [s] = s := by simp [joinSegs]
      rw [this]
      exact hasDoubleSlash_of_noslash hns
    | cons t r2 =>
      show hasDoubleSlash (s ++ '/' :: joinSegs (t :: r2)) = false
      refine hasDoubleSlash_seg_append hns ?_
      cases hj : joinSegs (t :: r2) with
      | nil => rfl
      | cons x xs =>
        have hx : x ≠ '/' := by
          have := joinSegs_head hrest
          rw [hj] at this
          simpa using this
        show ((decide ('/' = '/') && decide (x = '/')) || hasDoubleSlash (x :: xs)) = false
        rw [← hj, ih hrest]
        simp [hx]

theorem hasDoubleSlash_slashJoin {l : List GoStr} (h : GoodSegs l) :
    hasDoubleSlash ('/' :: joinSegs l) = false := by
  cases hj : joinSegs l with
  | nil => rfl
  | cons x xs =>
    have hx : x ≠ '/' := by
      have := joinSegs_head h
      rw [hj] at this
      simpa using this
    show ((decide ('/' = '/') && decide (x = '/')) || hasDoubleSlash (x :: xs)) = false
    rw [← hj, hasDoubleSlash_joinSegs h]
    simp [hx]

theorem hasDoubleSlash_append_slash {x : GoStr} (h1 : hasDoubleSlash x = false)
    (h2 : x.getLast? ≠ some '/') :
    hasDoubleSlash (x ++ ['/']) = false := by
  induction x with
  | nil => rfl
  | cons a rest ih =>
    cases rest with
    | nil =>
      have ha : a ≠ '/' := by simpa using h2
      show ((decide (a = '/') && decide ('/' = '/')) || hasDoubleSlash ['/']) = false
      simp [ha, hasDoubleSlash]
    | cons b r2 =>
      have hab : ((decide (a = '/') && decide (b = '/')) || hasDoubleSlash (b :: r2)) = false := h1
      rw [Bool.or_eq_false_iff] at hab
      have h2b : (b :: r2).getLast? ≠ some '/' := by
        rwa [List.getLast?_cons_cons] at h2
      show ((decide (a = '/') && decide (b = '/')) || hasDoubleSlash ((b :: r2) ++ ['/'])) = false
      rw [ih hab.2 h2b, hab.1]
      rfl

/-- Canonicalisation output facts for a rooted request path: the normalized
path has no `..` segment and no doubled separator, and normalization is
idempotent. -/
theorem normalize_canon {p : GoStr} (hp : p.head? = some '/') :
    ¬ hasDotDotSeg (normalizeReqPath p)
      ∧ hasDoubleSlash (normalizeReqPath p) = false
      ∧ normalizeReqPath (normalizeReqPath p) = normalizeReqPath p := by
  have hclean := cleanAbs_goPathClean hp
  set c := goPathClean p with hc
  have hcsegs : CleanSegs (segsOf c) := hclean.2.2
  have hrepr : c = '/' :: joinSegs (segsOf c) := cleanAbs_repr hclean
  have hgood : GoodSegs (segsOf c) := GoodSegs.of_clean hcsegs
  have hdotdot_c : gs ".." ∉ segsOf c := fun hmem => (hcsegs _ hmem).2.2.2 rfl
  have hds_c : hasDoubleSlash c = false := by
    rw [hrepr]; exact hasDoubleSlash_slashJoin hgood
  have hlast_c : c ≠ gs "/" → c.getLast? ≠ some '/' := by
    intro hne
    rw [hrepr]
    have hsegne : segsOf c ≠ [] := by
      intro hnil
      apply hne
      rw [hrepr, hnil]
      rfl
    have hjne : joinSegs (segsOf c) ≠ [] := joinSegs_ne_nil hgood hsegne
    cases hj : joinSegs (segsOf c) with
    | nil => exact absurd hj hjne
    | cons x xs =>
      rw [List.getLast?_cons_cons]
      have := joinSegs_last hgood
      rwa [hj] at this
  have hchead : c.head? = some '/' := hclean.1
  have hcfix : goPathClean c = c := hclean.2.1
  by_cases hcond : endsWith p (gs "/") = true ∧ c ≠ gs "/"
  · -- trailing slash preserved: normalizeReqPath p = c ++ "/"
    have hL : normalizeReqPath p = c ++ gs "/" := by
      unfold normalizeReqPath
      rw [← hc, if_pos hcond]
    have hsegsL : segsOf (c ++ gs "/") = segsOf c := segsOf_append_slash c
    have hcne : c ≠ [] := by
      intro hnil; rw [hnil] at hchead; simp at hchead
    have hheadL : (c ++ gs "/").head? = some '/' := by
      rw [List.head?_append, hchead]
      rfl
    refine hL ▸ ⟨?_, ?_, ?_⟩
    · intro hmem
      unfold hasDotDotSeg at hmem
      rw [hsegsL] at hmem
      exact hdotdot_c hmem
    · exact hasDoubleSlash_append_slash hds_c (hlast_c hcond.2)
    · -- idempotence on c ++ "/"
      have hcleanL : goPathClean (c ++ gs "/") = c := by
        rw [goPathClean_rooted hheadL, hsegsL, resolveSegs_id hcsegs, ← hrepr]
      unfold normalizeReqPath
      rw [hcleanL]
      have hendsL : endsWith (c ++ gs "/") (gs "/") = true :=
        endsWith_iff.mpr ⟨c, rfl⟩
      rw [if_pos ⟨hendsL, hcond.2⟩]
  · -- no trailing slash: normalizeReqPath p = c
    have hL : normalizeReqPath p = c := by
      unfold normalizeReqPath
      rw [← hc, if_neg hcond]
    refine hL ▸ ⟨?_, hds_c, ?_⟩
    · intro hmem
      unfold hasDotDotSeg at hmem
      rw [hrepr, segsOf_slash_cons, segsOf_joinSegs hgood] at hmem
      exact hdotdot_c hmem
    · -- idempotence on c
      unfold normalizeReqPath
      rw [hcfix]
      by_cases hcr : c = gs "/"
      · rw [if_neg (by simp [hcr])]
      · have : endsWith c (gs "/") ≠ true := by
          intro hends
          exact hlast_c hcr (endsWith_single.mp hends)
        rw [if_neg (by intro hand; exact this hand.1)]

/-- A rooted path with a `..` segment or a doubled separator is not
canonical: the handler will redirect it. -/
theorem normalize_ne_of_dirty {p : GoStr} (hp : p.head? = some '/')
    (h : hasDotDotSeg p ∨ hasDoubleSlash p = true) :
    normalizeReqPath p ≠ p := by
  intro heq
  obtain ⟨hdd, hds, _⟩ := normalize_canon hp
  rw [heq] at hdd hds
  rcases h with h | h
  · exact hdd h
  · rw [hds] at h; exact Bool.false_ne_true h

/-! ## The traversal containment check -/

theorem relSegs_of_prefix : ∀ {bs ts : List GoStr}, bs <+: ts →
    relSegs bs ts = some (ts.drop bs.length) := by
  intro bs
  induction bs with
  | nil => intro ts _; simp [relSegs]
  | cons b bs ih =>
    intro ts hpre
    cases ts with
    | nil => exact absurd (List.eq_nil_of_prefix_nil hpre) (by simp)
    | cons t ts =>
      obtain ⟨hb, htail⟩ := List.cons_prefix_cons.mp hpre
      subst hb
      show relSegs (b :: bs) (b :: ts) = some ((b :: ts).drop (bs.length + 1))
      rw [relSegs, if_pos rfl, List.drop_succ_cons]
      exact ih htail

theorem relSegs_of_not_prefix : ∀ {bs ts : List GoStr},
    (∀ x ∈ bs, x ≠ gs "..") → ¬ bs <+: ts →
    ∃ rest, relSegs bs ts = some (gs ".." :: rest) := by
  intro bs
  induction bs with
  | nil => intro ts _ hpre; exact absurd (List.nil_prefix) hpre
  | cons b bs ih =>
    intro ts hdots hpre
    have hb : b ≠ gs ".." := hdots b (List.mem_cons_self b bs)
    cases ts with
    | nil =>
      refine ⟨List.replicate bs.length (gs ".."), ?_⟩
      rw [relSegs, if_neg hb]
      rw [List.replicate_succ]
    | cons t ts =>
      by_cases hbt : b = t
      · subst hbt
        have htail : ¬ bs <+: ts := by
          intro hc
          exact hpre (List.cons_prefix_cons.mpr ⟨rfl, hc⟩)
        have hdots2 : ∀ x ∈ bs, x ≠ gs ".." :=
          fun x hx => hdots x (List.mem_cons_of_mem b hx)
        obtain ⟨rest, hrest⟩ := ih hdots2 htail
        exact ⟨rest, by rw [relSegs, if_pos rfl]; exact hrest⟩
      · refine ⟨List.replicate bs.length (gs "..") ++ t :: ts, ?_⟩
        rw [relSegs, if_neg hbt, if_neg hb, List.replicate_succ, List.cons_append]

theorem relEscape_of_head_dotdot (rest : List GoStr) :
    relEscape (joinSegs (gs ".." :: rest)) = true := by
  cases rest with
  | nil => decide
  | cons x xs =>
    have hj : joinSegs (gs ".." :: x :: xs) = gs "../" ++ joinSegs (x :: xs) := rfl
    have h2 : startsWith (gs "../" ++ joinSegs (x :: xs)) (gs "../") = true :=
      startsWith_iff.mpr ⟨joinSegs (x :: xs), rfl⟩
    unfold relEscape
    rw [hj, h2]
    simp

theorem relEscape_false_of_clean {l : List GoStr} (h : CleanSegs l) :
    relEscape (joinSegs l) = false := by
  cases l with
  | nil => decide
  | cons x xs =>
    obtain ⟨hxne, hxns, _, hxdd⟩ := h x (List.mem_cons_self x xs)
    have hA : joinSegs (x :: xs) ≠ gs ".." := by
      cases xs with
      | nil =>
        have : joinSegs [x] = x := by simp [joinSegs]
        rw [this]; exact hxdd
      | cons y ys =>
        intro hcon
        have hmem : '/' ∈ joinSegs (x :: y :: ys) := by
          show '/' ∈ x ++ '/' :: joinSegs (y :: ys)
          exact List.mem_append_right x (List.mem_cons_self _ _)
        rw [hcon] at hmem
        simp [gs] at hmem
    have hB : startsWith (joinSegs (x :: xs)) (gs "../") = false := by
      by_contra hc
      have hc2 : startsWith (joinSegs (x :: xs)) (gs "../") = true := by
        revert hc; cases startsWith (joinSegs (x :: xs)) (gs "../") <;> simp
      obtain ⟨t, ht⟩ := startsWith_iff.mp hc2
      cases xs with
      | nil =>
        have hjx : joinSegs [x] = x := by simp [joinSegs]
        rw [hjx] at ht
        apply hxns
        rw [ht]
        exact List.mem_append_left t (by decide)
      | cons y ys =>
        have hx' : x ++ '/' :: joinSegs (y :: ys) = '.' :: '.' :: '/' :: t := ht
        cases x with
        | nil => exact hxne rfl
        | cons a x1 =>
          cases x1 with
          | nil =>
            -- x = [a]: a :: '/' :: J = '.' :: '.' :: '/' :: t forces '/' = '.'
            have := hx'
            simp only [List.cons_append, List.nil_append, List.cons.injEq] at this
            exact absurd this.2.1 (by decide)
          | cons b2 x2 =>
            have := hx'
            simp only [List.cons_append, List.cons.injEq] at this
            obtain ⟨ha, hb2, hrest⟩ := this
            cases x2 with
            | nil =>
              -- x = [a, b2] = ['.','.'] contradicts x ≠ ".."
              subst ha; subst hb2
              exact hxdd rfl
            | cons c2 x3 =>
              -- third character of x is '/', contradicting slash-freedom
              have hc2' : c2 = '/' := by
                simpa using congrArg List.head? hrest
              apply hxns
              subst hc2'
              exact List.mem_cons_of_mem a (List.mem_cons_of_mem b2 (List.mem_cons_self _ _))
    unfold relEscape
    rw [hB]
    simp [hA]

theorem filepathRel_spec {b t : GoStr} (hb : CleanAbs b) (ht : CleanAbs t) :
    ∃ r, filepathRel b t = some r
      ∧ (relEscape r = true ↔ ¬ (segsOf b <+: segsOf t)) := by
  by_cases hbt : b = t
  · refine ⟨gs ".", ?_, ?_⟩
    · unfold filepathRel
      rw [hb.2.1, ht.2.1, if_pos hbt]
    · subst hbt
      simp [List.prefix_refl]
      decide
  · have hslash : (decide (b.head? = some '/') : Bool) = decide (t.head? = some '/') := by
      rw [decide_eq_true hb.1, decide_eq_true ht.1]
    have hbs : ∀ x ∈ segsOf b, x ≠ gs ".." := fun x hx => (hb.2.2 x hx).2.2.2
    by_cases hpre : segsOf b <+: segsOf t
    · refine ⟨joinSegs ((segsOf t).drop (segsOf b).length), ?_, ?_⟩
      · unfold filepathRel
        rw [hb.2.1, ht.2.1, if_neg hbt, if_neg (by rw [hslash]; simp),
          if_neg (cleanAbs_ne_dot hb), relSegs_of_prefix hpre]
      · have hdrop : CleanSegs ((segsOf t).drop (segsOf b).length) :=
          fun x hx => ht.2.2 x (List.mem_of_mem_drop hx)
        rw [relEscape_false_of_clean hdrop]
        simp [hpre]
    · obtain ⟨rest, hrest⟩ := relSegs_of_not_prefix hbs hpre
      refine ⟨joinSegs (gs ".." :: rest), ?_, ?_⟩
      · unfold filepathRel
        rw [hb.2.1, ht.2.1, if_neg hbt, if_neg (by rw [hslash]; simp),
          if_neg (cleanAbs_ne_dot hb), hrest]
      · rw [relEscape_of_head_dotdot rest]
        simp [hpre]

/-! ## Cache map lemmas -/

theorem mapGet_eq_none_iff {m : CacheMap} {k : GoStr} :
    mapGet m k = none ↔ k ∉ m.map Prod.fst := by
  induction m with
  | nil => simp [mapGet]
  | cons kv rest ih =>
    obtain ⟨k2, v⟩ := kv
    by_cases h : k2 = k
    · subst h
      simp [mapGet]
    · simp only [mapGet, if_neg h, List.map_cons, List.mem_cons, ih]
      constructor
      · intro hk hc
        rcases hc with hc | hc
        · exact h hc.symm
        · exact hk hc
      · intro hk
        exact fun hc => hk (Or.inr hc)

theorem mapGet_mem {m : CacheMap} {k : GoStr} {v : CacheItem}
    (h : mapGet m k = some v) : (k, v) ∈ m := by
  induction m with
  | nil => simp [mapGet] at h
  | cons kv rest ih =>
    obtain ⟨k2, v2⟩ := kv
    by_cases h2 : k2 = k
    · subst h2
      rw [mapGet, if_pos rfl] at h
      injection h with h
      subst h
      exact List.mem_cons_self _ _
    · rw [mapGet, if_neg h2] at h
      exact List.mem_cons_of_mem _ (ih h)

theorem mem_mapGet {m : CacheMap} {k : GoStr} {v : CacheItem}
    (hnd : KeysNodup m) (h : (k, v) ∈ m) : mapGet m k = some v := by
  induction m with
  | nil => simp at h
  | cons kv rest ih =>
    obtain ⟨k2, v2⟩ := kv
    have hnd2 : KeysNodup rest := (List.nodup_cons.mp hnd).2
    rcases List.mem_cons.mp h with heq | hmem
    · injection heq with h1 h2
      subst h1; subst h2
      rw [mapGet, if_pos rfl]
    · have hk2 : k2 ≠ k := by
        intro hc
        subst hc
        exact (List.nodup_cons.mp hnd).1 (List.mem_map.mpr ⟨(k2, v), hmem, rfl⟩)
      rw [mapGet, if_neg hk2]
      exact ih hnd2 hmem

theorem mapGet_mapDelete {m : CacheMap} {k key : GoStr} :
    mapGet (mapDelete m k) key = if k = key then none else mapGet m key := by
  induction m with
  | nil => simp [mapGet, mapDelete]
  | cons kv rest ih =>
    obtain ⟨k2, v2⟩ := kv
    by_cases h2 : k2 = k
    · subst h2
      by_cases hk : k2 = key
      · subst hk
        simpa [mapDelete, mapGet] using ih
      · simp only [mapDelete, List.filter_cons] at ih ⊢
        simp only [decide_not, if_pos rfl]
        simpa [mapGet, hk] using ih
    · by_cases hk : k2 = key
      · subst hk
        have hne : k ≠ k2 := fun hc => h2 hc.symm
        simp [mapDelete, List.filter_cons, h2, mapGet, hne]
      · simp only [mapDelete, List.filter_cons] at ih ⊢
        simp only [decide_not, h2, mapGet]
        by_cases hkk : k = key
        · simpa [mapGet, hk, hkk] using ih
        · simpa [mapGet, hk, hkk] using ih

theorem mapDelete_of_get_none {m : CacheMap} {k : GoStr}
    (h : mapGet m k = none) : mapDelete m k = m := by
  induction m with
  | nil => rfl
  | cons kv rest ih =>
    obtain ⟨k2, v2⟩ := kv
    by_cases h2 : k2 = k
    · subst h2
      rw [mapGet, if_pos rfl] at h
      exact absurd h (by simp)
    · rw [mapGet, if_neg h2] at h
      have hrec := ih h
      unfold mapDelete at hrec ⊢
      rw [List.filter_cons, if_pos (by simpa using h2), hrec]

theorem length_mapDelete_of_get_some {m : CacheMap} {k : GoStr} {v : CacheItem}
    (hnd : KeysNodup m) (h : mapGet m k = some v) :
    (mapDelete m k).length + 1 = m.length := by
  induction m with
  | nil => simp [mapGet] at h
  | cons kv rest ih =>
    obtain ⟨k2, v2⟩ := kv
    have hnd2 : KeysNodup rest := (List.nodup_cons.mp hnd).2
    by_cases h2 : k2 = k
    · subst h2
      have hrest : mapGet rest k2 = none :=
        mapGet_eq_none_iff.mpr (List.nodup_cons.mp hnd).1
      have hdel : mapDelete ((k2, v2) :: rest) k2 = rest := by
        have hsub := mapDelete_of_get_none hrest
        unfold mapDelete at hsub ⊢
        rw [List.filter_cons, if_neg (by simp)]
        exact hsub
      rw [hdel]
      simp
    · rw [mapGet, if_neg h2] at h
      have hdel : mapDelete ((k2, v2) :: rest) k = (k2, v2) :: mapDelete rest k := by
        unfold mapDelete
        rw [List.filter_cons, if_pos (by simpa using h2)]
      rw [hdel]
      have := ih hnd2 h
      simp only [List.length_cons]
      omega

theorem length_mapDelete_le {m : CacheMap} {k : GoStr} :
    (mapDelete m k).length ≤ m.length :=
  List.length_filter_le _ m

theorem keysNodup_mapDelete {m : CacheMap} {k : GoStr} (hnd : KeysNodup m) :
    KeysNodup (mapDelete m k) :=
  ((List.filter_sublist m).map Prod.fst).nodup hnd

theorem keysNodup_mapInsert {m : CacheMap} {k : GoStr} {v : CacheItem}
    (hnd : KeysNodup m) : KeysNodup (mapInsert m k v) := by
  unfold KeysNodup mapInsert
  rw [List.map_cons, List.nodup_cons]
  refine ⟨?_, keysNodup_mapDelete hnd⟩
  intro hmem
  have : mapGet (mapDelete m k) k = none := by
    rw [mapGet_mapDelete, if_pos rfl]
  exact (mapGet_eq_none_iff.mp this) hmem

theorem mapGet_mapInsert_self {m : CacheMap} {k : GoStr} {v : CacheItem} :
    mapGet (mapInsert m k v) k = some v := by
  unfold mapInsert
  rw [mapGet, if_pos rfl]

theorem mapGet_mapInsert_ne {m : CacheMap} {k key : GoStr} {v : CacheItem}
    (h : k ≠ key) : mapGet (mapInsert m k v) key = mapGet m key := by
  unfold mapInsert
  rw [mapGet, if_neg h, mapGet_mapDelete, if_neg h]

/-! ## Put / eviction lemmas -/

theorem keysNodup_cachePut {cacheLimit maxCacheItems now : Int}
    {pick : CacheMap → GoStr} {m : CacheMap} {key body : GoStr}
    (hnd : KeysNodup m) :
    KeysNodup (cachePut cacheLimit maxCacheItems now pick m key body) := by
  unfold cachePut
  split
  · exact keysNodup_mapInsert (keysNodup_mapDelete hnd)
  · exact keysNodup_mapInsert hnd

theorem cachePut_get_self {cacheLimit maxCacheItems now : Int}
    {pick : CacheMap → GoStr} {m : CacheMap} {key body : GoStr} :
    mapGet (cachePut cacheLimit maxCacheItems now pick m key body) key
      = some ⟨body, now + cacheLimit⟩ := by
  unfold cachePut
  split <;> exact mapGet_mapInsert_self

theorem cachePut_evicts {cacheLimit maxCacheItems now : Int}
    {pick : CacheMap → GoStr} {m : CacheMap} {key body : GoStr}
    (hnd : KeysNodup m) (hmax : maxCacheItems > 0)
    (hpick : ∀ mm : CacheMap, mm ≠ [] → (mapGet mm (pick mm)).isSome = true)
    (hfull : (m.length : Int) ≥ maxCacheItems) (hnew : mapGet m key = none) :
    (mapGet m (pick m)).isSome = true
      ∧ (mapDelete m (pick m)).length + 1 = m.length
      ∧ (cachePut cacheLimit maxCacheItems now pick m key body).length = m.length := by
  have hmne : m ≠ [] := by
    intro hc
    subst hc
    simp at hfull
    omega
  have hsome := hpick m hmne
  obtain ⟨v, hv⟩ := Option.isSome_iff_exists.mp hsome
  have hdel := length_mapDelete_of_get_some hnd hv
  refine ⟨hsome, hdel, ?_⟩
  unfold cachePut
  rw [if_pos ⟨hmax, hfull, hnew⟩]
  unfold mapInsert
  have hget2 : mapGet (mapDelete m (pick m)) key = none := by
    rw [mapGet_mapDelete]
    split
    · rfl
    · exact hnew
  rw [mapDelete_of_get_none hget2]
  simp only [List.length_cons]
  omega

theorem cachePut_length_le {cacheLimit maxCacheItems now : Int}
    {pick : CacheMap → GoStr} {m : CacheMap} {key body : GoStr}
    (hnd : KeysNodup m) (hmax : maxCacheItems > 0)
    (hpick : ∀ mm : CacheMap, mm ≠ [] → (mapGet mm (pick mm)).isSome = true)
    (hlen : (m.length : Int) ≤ maxCacheItems) :
    ((cachePut cacheLimit maxCacheItems now pick m key body).length : Int)
      ≤ maxCacheItems := by
  by_cases hcond : maxCacheItems > 0 ∧ (m.length : Int) ≥ maxCacheItems
      ∧ mapGet m key = none
  · obtain ⟨_, _, hres⟩ :=
      @cachePut_evicts cacheLimit maxCacheItems now pick m key body
        hnd hmax hpick hcond.2.1 hcond.2.2
    rw [hres]
    exact hlen
  · unfold cachePut
    rw [if_neg hcond]
    unfold mapInsert
    cases hget : mapGet m key with
    | some v =>
      have hdel := length_mapDelete_of_get_some hnd hget
      simp only [List.length_cons]
      omega
    | none =>
      rw [mapDelete_of_get_none hget]
      simp only [List.length_cons]
      have hlt : ¬ ((m.length : Int) ≥ maxCacheItems) := by
        intro hge
        exact hcond ⟨hmax, hge, hget⟩
      push_cast
      omega

theorem applyPuts_length_le {cacheLimit maxCacheItems : Int}
    {pick : CacheMap → GoStr}
    (hmax : maxCacheItems > 0)
    (hpick : ∀ mm : CacheMap, mm ≠ [] → (mapGet mm (pick mm)).isSome = true) :
    ∀ (ops : List (Int × GoStr × GoStr)) (m : CacheMap),
      KeysNodup m → (m.length : Int) ≤ maxCacheItems →
      KeysNodup (applyPuts cacheLimit maxCacheItems pick m ops)
        ∧ ((applyPuts cacheLimit maxCacheItems pick m ops).length : Int)
            ≤ maxCacheItems := by
  intro ops
  induction ops with
  | nil => intro m hnd hlen; exact ⟨hnd, hlen⟩
  | cons op rest ih =>
    intro m hnd hlen
    obtain ⟨now, key, body⟩ := op
    exact ih _ (keysNodup_cachePut hnd) (cachePut_length_le hnd hmax hpick hlen)

/-! ## Sweep lemmas -/

theorem mapGet_foldl_mapDelete :
    ∀ (ks : List GoStr) (m : CacheMap) (k : GoStr),
      mapGet (ks.foldl mapDelete m) k = if k ∈ ks then none else mapGet m k := by
  intro ks
  induction ks with
  | nil => intro m k; simp
  | cons k1 ks ih =>
    intro m k
    rw [List.foldl_cons, ih]
    by_cases hmem : k ∈ ks
    · simp [hmem]
    · rw [if_neg hmem, mapGet_mapDelete]
      by_cases h1 : k1 = k
      · subst h1; simp
      · have : k ∉ k1 :: ks := by
          intro hc
          rcases List.mem_cons.mp hc with hc | hc
          · exact h1 hc.symm
          · exact hmem hc
        rw [if_neg h1, if_neg this]

theorem mem_expiredKeys {now : Int} {m : CacheMap} {k : GoStr}
    (hnd : KeysNodup m) :
    k ∈ (m.filter (fun kv => decide (now > kv.2.Expires))).map Prod.fst
      ↔ ∃ v, mapGet m k = some v ∧ now > v.Expires := by
  constructor
  · intro hmem
    obtain ⟨⟨k2, v⟩, hin, heq⟩ := List.mem_map.mp hmem
    obtain ⟨hmm, hexp⟩ := List.mem_filter.mp hin
    cases heq
    exact ⟨v, mem_mapGet hnd hmm, by simpa using hexp⟩
  · rintro ⟨v, hget, hexp⟩
    refine List.mem_map.mpr ⟨(k, v), List.mem_filter.mpr ⟨mapGet_mem hget, by simpa using hexp⟩, rfl⟩

/-! ## Handler-shape lemmas -/

theorem handleRequest_pass {cfg : SrvConfig} {cwd : GoStr} {fs : GoStr → ReadResult}
    {render : GoStr → Option GoStr} {pick : CacheMap → GoStr}
    {now : Int} {cache : CacheMap} {p : GoStr}
    (hcanon : normalizeReqPath p = p)
    (hstrict : cfg.strictHtmlUrl = true → endsWith p (gs ".html") = true) :
    handleRequest cfg cwd fs render pick now cache p
      = serveDoc cfg cwd fs render pick now cache (reqPathOf p) := by
  unfold handleRequest
  rw [if_neg (by simp [hcanon])]
  rw [if_neg (by
    intro hand
    have hT := hstrict hand.1
    rw [hT] at hand
    exact absurd hand.2 (by simp))]

theorem serveDoc_hit {cfg : SrvConfig} {cwd : GoStr} {fs : GoStr → ReadResult}
    {render : GoStr → Option GoStr} {pick : CacheMap → GoStr}
    {now : Int} {cache : CacheMap} {key : GoStr} {it : CacheItem}
    (hget : mapGet cache key = some it)
    (hvalid : isCacheValid cfg.cacheLimit now (some it) = true) :
    serveDoc cfg cwd fs render pick now cache key
      = ⟨.serve (gs "HIT") (cacheControlHit cfg.cacheLimit) it.Content, cache⟩ := by
  unfold serveDoc
  rw [hget, if_pos hvalid]
  rfl

theorem serveDoc_miss {cfg : SrvConfig} {cwd : GoStr} {fs : GoStr → ReadResult}
    {render : GoStr → Option GoStr} {pick : CacheMap → GoStr}
    {now : Int} {cache : CacheMap} {key : GoStr} {rel md body : GoStr}
    (hvalid : isCacheValid cfg.cacheLimit now (mapGet cache key) = false)
    (hrel : filepathRel (rootAbs cwd cfg.markdownRootDir)
        (candidateAbs cwd cfg.markdownRootDir key) = some rel)
    (hesc : relEscape rel = false)
    (hfs : fs (candidateAbs cwd cfg.markdownRootDir key) = .ok md)
    (hrender : render md = some body) :
    serveDoc cfg cwd fs render pick now cache key
      = ⟨.serve (gs "MISS") (cacheControlMiss cfg.cacheLimit) body,
         cachePut cfg.cacheLimit cfg.maxCacheItems now pick cache key body⟩ := by
  unfold serveDoc
  rw [if_neg (by simp [hvalid]), hrel]
  simp [hesc, hfs, hrender]

theorem serveDoc_traversal {cfg : SrvConfig} {cwd : GoStr} {fs : GoStr → ReadResult}
    {render : GoStr → Option GoStr} {pick : CacheMap → GoStr}
    {now : Int} {cache : CacheMap} {key : GoStr}
    (hcwd : cwd.head? = some '/')
    (hvalid : isCacheValid cfg.cacheLimit now (mapGet cache key) = false)
    (hout : ¬ (segsOf (rootAbs cwd cfg.markdownRootDir)
        <+: segsOf (candidateAbs cwd cfg.markdownRootDir key))) :
    serveDoc cfg cwd fs render pick now cache key = ⟨.notFound, cache⟩ := by
  have hbroot : CleanAbs (rootAbs cwd cfg.markdownRootDir) :=
    cleanAbs_filepathAbs hcwd
  have hbpath : CleanAbs (candidateAbs cwd cfg.markdownRootDir key) :=
    cleanAbs_filepathAbs hcwd
  obtain ⟨r, hr, hiff⟩ := filepathRel_spec hbroot hbpath
  unfold serveDoc
  rw [if_neg (by simp [hvalid]), hr]
  simp [hiff.mpr hout]

theorem serveDoc_result_ne_redirect {cfg : SrvConfig} {cwd : GoStr}
    {fs : GoStr → ReadResult} {render : GoStr → Option GoStr}
    {pick : CacheMap → GoStr} {now : Int} {cache : CacheMap} {key : GoStr}
    (loc : GoStr) :
    (serveDoc cfg cwd fs render pick now cache key).result ≠ .redirect loc := by
  unfold serveDoc
  split
  · simp
  · split
    · simp
    · split
      · simp
      · split <;> try simp
        split <;> simp

/-! ## Concrete fixtures for witnesses -/

theorem pickFirst_valid :
    ∀ mm : CacheMap, mm ≠ [] →
      (mapGet mm ((mm.head?.map Prod.fst).getD [])).isSome = true := by
  intro mm hne
  cases mm with
  | nil => exact absurd rfl hne
  | cons kv rest =>
    obtain ⟨k, v⟩ := kv
    simp [mapGet]

/-! ## Claim C1 -/

/-- C1: whenever the derived on-disk candidate (content root joined with the
cleaned request key plus `.md`) resolves outside the content root — outside
meaning the root's path segments are not a leading sequence of the
candidate's — the handler answers 404 with the cache untouched, uniformly in
the filesystem and renderer, so no file read can influence the outcome; and
the containment check is the relative-path test `rel == ".." ||
HasPrefix(rel, "../")`, not a string-prefix test: a root `/docs` rejects the
string-prefixed sibling `/docs-evil/secret.md`. -/
theorem spec_C1 :
    (∀ (cfg : SrvConfig) (cwd : GoStr) (fs : GoStr → ReadResult)
        (render : GoStr → Option GoStr) (pick : CacheMap → GoStr)
        (now : Int) (cache : CacheMap) (p : GoStr),
      cwd.head? = some '/' →
      normalizeReqPath p = p →
      (cfg.strictHtmlUrl = true → endsWith p (gs ".html") = true) →
      isCacheValid cfg.cacheLimit now (mapGet cache (reqPathOf p)) = false →
      ¬ (segsOf (rootAbs cwd cfg.markdownRootDir)
          <+: segsOf (candidateAbs cwd cfg.markdownRootDir (reqPathOf p))) →
      handleRequest cfg cwd fs render pick now cache p = ⟨.notFound, cache⟩)
    ∧ startsWith (gs "/docs-evil/secret.md") (gs "/docs") = true
    ∧ filepathRel (gs "/docs") (gs "/docs-evil/secret.md")
        = some (gs "../docs-evil/secret.md")
    ∧ relEscape (gs "../docs-evil/secret.md") = true := by
  refine ⟨?_, by decide, by decide, by decide⟩
  intro cfg cwd fs render pick now cache p hcwd hcanon hstrict hmiss hout
  rw [handleRequest_pass hcanon hstrict]
  exact serveDoc_traversal hcwd hmiss hout

/-- C1 witness: with root `/docs`, the canonical request `/.html` maps to the
key `/` and the candidate `/docs.md`, which lies outside `/docs`; the handler
answers 404 even against a filesystem on which every read succeeds. -/
theorem spec_C1_witness :
    handleRequest ⟨gs "/docs", false, 60, 100⟩ (gs "/")
        (fun _ => ReadResult.ok (gs "secret")) (fun md => some md)
        (fun _ => []) 0 [] (gs "/.html")
      = ⟨.notFound, []⟩ :=
  spec_C1.1 ⟨gs "/docs", false, 60, 100⟩ (gs "/") (fun _ => ReadResult.ok (gs "secret"))
    (fun md => some md) (fun _ => []) 0 [] (gs "/.html")
    (by decide) (by decide) (by decide) (by decide) (by decide)

/-! ## Claim C2 -/

/-- C2: with a positive entry bound, a `Put` (the handler's save-to-cache
block) keeps the store within the bound; when the store is at or above the
bound and the key is new, exactly one existing entry (the ranged-over key) is
deleted before the insert, leaving the size unchanged; the just-inserted key
is present immediately afterwards with the freshly computed expiry; and any
sequence of `Put`s from the empty store stays within the bound. -/
theorem spec_C2 :
    ∀ (cacheLimit maxCacheItems now : Int) (pick : CacheMap → GoStr)
      (m : CacheMap) (key body : GoStr),
      maxCacheItems > 0 →
      KeysNodup m →
      (∀ mm : CacheMap, mm ≠ [] → (mapGet mm (pick mm)).isSome = true) →
      ((m.length : Int) ≤ maxCacheItems →
        ((cachePut cacheLimit maxCacheItems now pick m key body).length : Int)
          ≤ maxCacheItems)
      ∧ ((m.length : Int) ≥ maxCacheItems → mapGet m key = none →
          (mapGet m (pick m)).isSome = true
          ∧ (mapDelete m (pick m)).length + 1 = m.length
          ∧ (cachePut cacheLimit maxCacheItems now pick m key body).length
              = m.length)
      ∧ mapGet (cachePut cacheLimit maxCacheItems now pick m key body) key
          = some ⟨body, now + cacheLimit⟩
      ∧ (∀ ops : List (Int × GoStr × GoStr),
          ((applyPuts cacheLimit maxCacheItems pick [] ops).length : Int)
            ≤ maxCacheItems) := by
  intro cacheLimit maxCacheItems now pick m key body hmax hnd hpick
  refine ⟨fun hlen => cachePut_length_le hnd hmax hpick hlen,
          fun hfull hnew => cachePut_evicts hnd hmax hpick hfull hnew,
          cachePut_get_self,
          fun ops => ?_⟩
  refine (applyPuts_length_le hmax hpick ops [] ?_ ?_).2
  · unfold KeysNodup
    simp
  · simp
    omega

/-- C2 witness: capacity 2, two entries cached, inserting a third fresh key
evicts one entry, stays at size 2, and the new key is present. -/
theorem spec_C2_witness :
    ((cachePut 60 2 0 (fun mm => (mm.head?.map Prod.fst).getD [])
        [(gs "/a", ⟨gs "A", 60⟩), (gs "/b", ⟨gs "B", 60⟩)]
        (gs "/c") (gs "C")).length : Int) ≤ 2
    ∧ mapGet (cachePut 60 2 0 (fun mm => (mm.head?.map Prod.fst).getD [])
        [(gs "/a", ⟨gs "A", 60⟩), (gs "/b", ⟨gs "B", 60⟩)]
        (gs "/c") (gs "C")) (gs "/c") = some ⟨gs "C", 60⟩
    ∧ (cachePut 60 2 0 (fun mm => (mm.head?.map Prod.fst).getD [])
        [(gs "/a", ⟨gs "A", 60⟩), (gs "/b", ⟨gs "B", 60⟩)]
        (gs "/c") (gs "C")).length
        = ([(gs "/a", ⟨gs "A", 60⟩), (gs "/b", ⟨gs "B", 60⟩)] : CacheMap).length := by
  have h := spec_C2 60 2 0 (fun mm => (mm.head?.map Prod.fst).getD [])
    [(gs "/a", ⟨gs "A", 60⟩), (gs "/b", ⟨gs "B", 60⟩)] (gs "/c") (gs "C")
    (by decide) (by unfold KeysNodup; decide) pickFirst_valid
  exact ⟨h.1 (by decide), h.2.2.1, (h.2.1 (by decide) (by decide)).2.2⟩

/-! ## Claim C3 -/

theorem isCacheValid_some_eq_pos {cacheLimit now : Int} {it : CacheItem}
    (h : cacheLimit > 0) :
    isCacheValid cacheLimit now (some it) = decide (now < it.Expires) := by
  show (if cacheLimit > 0 then decide (now < it.Expires) else true)
      = decide (now < it.Expires)
  rw [if_pos h]

theorem isCacheValid_some_eq_indef {cacheLimit now : Int} {it : CacheItem}
    (h : ¬ cacheLimit > 0) :
    isCacheValid cacheLimit now (some it) = true := by
  show (if cacheLimit > 0 then decide (now < it.Expires) else true) = true
  rw [if_neg h]

theorem isCacheValid_some_iff (cacheLimit now : Int) (it : CacheItem) :
    isCacheValid cacheLimit now (some it) = true
      ↔ (cacheLimit ≤ 0 ∨ now < it.Expires) := by
  by_cases h : cacheLimit > 0
  · rw [isCacheValid_some_eq_pos h]
    simp only [decide_eq_true_eq]
    omega
  · rw [isCacheValid_some_eq_indef h]
    simp only [true_iff]
    omega

/-- C3: a found entry is valid iff the TTL is non-positive or the clock is
before its expiry; with TTL ≤ 0 a found entry is served as HIT no matter how
far in the past its `Expires` lies; with TTL > 0 a fresh key is served MISS
and cached to expire at `now + TTL`, a second request before that instant is
served HIT with the same body, and a request at or after it is served MISS
again. -/
theorem spec_C3 :
    (∀ (cacheLimit now : Int) (it : CacheItem),
      (isCacheValid cacheLimit now (some it) = true
        ↔ (cacheLimit ≤ 0 ∨ now < it.Expires))
      ∧ isCacheValid cacheLimit now none = false)
    ∧ (∀ (cfg : SrvConfig) (cwd : GoStr) (fs : GoStr → ReadResult)
        (render : GoStr → Option GoStr) (pick : CacheMap → GoStr)
        (now : Int) (cache : CacheMap) (p : GoStr) (it : CacheItem),
      cfg.cacheLimit ≤ 0 →
      normalizeReqPath p = p →
      (cfg.strictHtmlUrl = true → endsWith p (gs ".html") = true) →
      mapGet cache (reqPathOf p) = some it →
      handleRequest cfg cwd fs render pick now cache p
        = ⟨.serve (gs "HIT") (cacheControlHit cfg.cacheLimit) it.Content, cache⟩)
    ∧ (∀ (cfg : SrvConfig) (cwd : GoStr) (fs : GoStr → ReadResult)
        (render : GoStr → Option GoStr) (pick : CacheMap → GoStr)
        (now : Int) (cache : CacheMap) (p rel md body : GoStr),
      cfg.cacheLimit > 0 →
      normalizeReqPath p = p →
      (cfg.strictHtmlUrl = true → endsWith p (gs ".html") = true) →
      mapGet cache (reqPathOf p) = none →
      filepathRel (rootAbs cwd cfg.markdownRootDir)
          (candidateAbs cwd cfg.markdownRootDir (reqPathOf p)) = some rel →
      relEscape rel = false →
      fs (candidateAbs cwd cfg.markdownRootDir (reqPathOf p)) = .ok md →
      render md = some body →
      handleRequest cfg cwd fs render pick now cache p
          = ⟨.serve (gs "MISS") (cacheControlMiss cfg.cacheLimit) body,
             cachePut cfg.cacheLimit cfg.maxCacheItems now pick cache
               (reqPathOf p) body⟩
        ∧ mapGet (cachePut cfg.cacheLimit cfg.maxCacheItems now pick cache
              (reqPathOf p) body) (reqPathOf p)
            = some ⟨body, now + cfg.cacheLimit⟩
        ∧ (∀ now2, now2 < now + cfg.cacheLimit →
            handleRequest cfg cwd fs render pick now2
                (cachePut cfg.cacheLimit cfg.maxCacheItems now pick cache
                  (reqPathOf p) body) p
              = ⟨.serve (gs "HIT") (cacheControlHit cfg.cacheLimit) body,
                 cachePut cfg.cacheLimit cfg.maxCacheItems now pick cache
                   (reqPathOf p) body⟩)
        ∧ (∀ now3, now + cfg.cacheLimit ≤ now3 →
            (handleRequest cfg cwd fs render pick now3
                (cachePut cfg.cacheLimit cfg.maxCacheItems now pick cache
                  (reqPathOf p) body) p).result
              = .serve (gs "MISS") (cacheControlMiss cfg.cacheLimit) body)) := by
  refine ⟨fun cacheLimit now it => ⟨isCacheValid_some_iff cacheLimit now it, rfl⟩, ?_, ?_⟩
  · intro cfg cwd fs render pick now cache p it hindef hcanon hstrict hget
    rw [handleRequest_pass hcanon hstrict]
    exact serveDoc_hit hget ((isCacheValid_some_iff _ _ _).mpr (Or.inl hindef))
  · intro cfg cwd fs render pick now cache p rel md body hpos hcanon hstrict
      hnone hrel hesc hfs hrender
    have hmain : handleRequest cfg cwd fs render pick now cache p
        = ⟨.serve (gs "MISS") (cacheControlMiss cfg.cacheLimit) body,
           cachePut cfg.cacheLimit cfg.maxCacheItems now pick cache
             (reqPathOf p) body⟩ := by
      rw [handleRequest_pass hcanon hstrict]
      exact serveDoc_miss (by rw [hnone]; rfl) hrel hesc hfs hrender
    refine ⟨hmain, cachePut_get_self, ?_, ?_⟩
    · intro now2 h2
      rw [handleRequest_pass hcanon hstrict]
      exact serveDoc_hit cachePut_get_self
        ((isCacheValid_some_iff _ _ _).mpr (Or.inr h2))
    · intro now3 h3
      rw [handleRequest_pass hcanon hstrict]
      have hinvalid : isCacheValid cfg.cacheLimit now3
          (mapGet (cachePut cfg.cacheLimit cfg.maxCacheItems now pick cache
            (reqPathOf p) body) (reqPathOf p)) = false := by
        rw [cachePut_get_self, isCacheValid_some_eq_pos hpos]
        simp only [decide_eq_false_iff_not]
        show ¬ now3 < now + cfg.cacheLimit
        omega
      rw [serveDoc_miss hinvalid hrel hesc hfs hrender]

/-- C3 witness: TTL 60, root `/d`, file `/d/about.md`: request `/about` at
time 0 is a MISS, at time 59 a HIT with the same body, at time 60 a MISS
again; and with TTL 0 an entry expired far in the past is still a HIT. -/
theorem spec_C3_witness :
    handleRequest ⟨gs "/d", false, 60, 100⟩ (gs "/")
        (fun q => if q = gs "/d/about.md" then .ok (gs "# About") else .notExist)
        (fun md => some (gs "<html>" ++ md)) (fun _ => []) 0 [] (gs "/about")
      = ⟨.serve (gs "MISS") (cacheControlMiss 60) (gs "<html># About"),
         cachePut 60 100 0 (fun _ => []) [] (gs "/about") (gs "<html># About")⟩
    ∧ handleRequest ⟨gs "/d", false, 60, 100⟩ (gs "/")
        (fun q => if q = gs "/d/about.md" then .ok (gs "# About") else .notExist)
        (fun md => some (gs "<html>" ++ md)) (fun _ => []) 59
        (cachePut 60 100 0 (fun _ => []) [] (gs "/about") (gs "<html># About"))
        (gs "/about")
      = ⟨.serve (gs "HIT") (cacheControlHit 60) (gs "<html># About"),
         cachePut 60 100 0 (fun _ => []) [] (gs "/about") (gs "<html># About")⟩
    ∧ (handleRequest ⟨gs "/d", false, 60, 100⟩ (gs "/")
        (fun q => if q = gs "/d/about.md" then .ok (gs "# About") else .notExist)
        (fun md => some (gs "<html>" ++ md)) (fun _ => []) 60
        (cachePut 60 100 0 (fun _ => []) [] (gs "/about") (gs "<html># About"))
        (gs "/about")).result
      = .serve (gs "MISS") (cacheControlMiss 60) (gs "<html># About")
    ∧ handleRequest ⟨gs "/d", false, 0, 100⟩ (gs "/")
        (fun q => if q = gs "/d/about.md" then .ok (gs "# About") else .notExist)
        (fun md => some (gs "<html>" ++ md)) (fun _ => []) 1000000
        [(gs "/about", ⟨gs "old", -999999⟩)] (gs "/about")
      = ⟨.serve (gs "HIT") (cacheControlHit 0) (gs "old"),
         [(gs "/about", ⟨gs "old", -999999⟩)]⟩ := by
  have h := spec_C3.2.2 ⟨gs "/d", false, 60, 100⟩ (gs "/")
    (fun q => if q = gs "/d/about.md" then .ok (gs "# About") else .notExist)
    (fun md => some (gs "<html>" ++ md)) (fun _ => []) 0 [] (gs "/about")
    (gs "about.md") (gs "# About") (gs "<html># About")
    (by decide) (by decide) (by decide) (by decide) (by decide) (by decide)
    (by decide) (by decide)
  have hhit := spec_C3.2.1 ⟨gs "/d", false, 0, 100⟩ (gs "/")
    (fun q => if q = gs "/d/about.md" then .ok (gs "# About") else .notExist)
    (fun md => some (gs "<html>" ++ md)) (fun _ => []) 1000000
    [(gs "/about", ⟨gs "old", -999999⟩)] (gs "/about") ⟨gs "old", -999999⟩
    (by decide) (by decide) (by decide) (by decide)
  exact ⟨h.1, h.2.2.1 59 (by decide), h.2.2.2 60 (by decide), hhit⟩

/-! ## Claim C4 -/

/-- C4 counterexample: with TTL 0 (indefinite mode) the first, successfully
served response is a MISS carrying `Cache-Control: max-age=0` — not the fixed
long value — while an immediately following HIT for the same key carries
`max-age=86400`; so under TTL ≤ 0 served responses do not all carry the fixed
long value, refuting the claim for MISS responses. -/
theorem spec_C4_counterexample :
    (handleRequest ⟨gs "/d", false, 0, 100⟩ (gs "/")
        (fun q => if q = gs "/d/about.md" then .ok (gs "# About") else .notExist)
        (fun md => some (gs "<html>" ++ md)) (fun _ => []) 5 [] (gs "/about")).result
      = .serve (gs "MISS") (gs "max-age=0") (gs "<html># About")
    ∧ (handleRequest ⟨gs "/d", false, 0, 100⟩ (gs "/")
        (fun q => if q = gs "/d/about.md" then .ok (gs "# About") else .notExist)
        (fun md => some (gs "<html>" ++ md)) (fun _ => []) 99
        (handleRequest ⟨gs "/d", false, 0, 100⟩ (gs "/")
          (fun q => if q = gs "/d/about.md" then .ok (gs "# About") else .notExist)
          (fun md => some (gs "<html>" ++ md)) (fun _ => []) 5 [] (gs "/about")).cache
        (gs "/about")).result
      = .serve (gs "HIT") (gs "max-age=86400") (gs "<html># About")
    ∧ gs "max-age=0" ≠ gs "max-age=86400" := by
  refine ⟨by decide, by decide, by decide⟩

/-- C4 amended: every successfully served response carries
`Cache-Control: max-age=N`; on a HIT, N is the TTL when the TTL is positive
and the fixed long value 86400 when the TTL is indefinite (≤ 0); on a MISS, N
is always the raw configured TTL, even when it is ≤ 0 (the code's MISS path
has no indefinite-mode branch). -/
theorem spec_C4_amended :
    (∀ (cfg : SrvConfig) (cwd : GoStr) (fs : GoStr → ReadResult)
        (render : GoStr → Option GoStr) (pick : CacheMap → GoStr)
        (now : Int) (cache : CacheMap) (p : GoStr) (x cc body : GoStr),
      (handleRequest cfg cwd fs render pick now cache p).result = .serve x cc body →
      (x = gs "HIT" ∧ cc = cacheControlHit cfg.cacheLimit)
        ∨ (x = gs "MISS" ∧ cc = cacheControlMiss cfg.cacheLimit))
    ∧ (∀ cacheLimit : Int, cacheLimit > 0 →
        cacheControlHit cacheLimit = gs "max-age=" ++ (toString cacheLimit).toList)
    ∧ (∀ cacheLimit : Int, cacheLimit ≤ 0 →
        cacheControlHit cacheLimit = gs "max-age=86400")
    ∧ (∀ cacheLimit : Int,
        cacheControlMiss cacheLimit = gs "max-age=" ++ (toString cacheLimit).toList) := by
  refine ⟨?_, ?_, ?_, fun _ => rfl⟩
  · intro cfg cwd fs render pick now cache p x cc body h
    unfold handleRequest at h
    split at h
    · simp at h
    · split at h
      · simp at h
      · unfold serveDoc at h
        split at h
        · simp only [HOut.mk.injEq] at h
          rw [HResult.serve.injEq] at h
          exact Or.inl ⟨h.1.symm, h.2.1.symm⟩
        · split at h
          · simp at h
          · split at h
            · simp at h
            · split at h
              · simp at h
              · simp at h
              · split at h
                · simp at h
                · simp only [HOut.mk.injEq] at h
                  rw [HResult.serve.injEq] at h
                  exact Or.inr ⟨h.1.symm, h.2.1.symm⟩
  · intro cacheLimit h
    unfold cacheControlHit
    rw [if_pos h]
  · intro cacheLimit h
    unfold cacheControlHit
    rw [if_neg (by omega)]

/-- C4 amended witness: at an indefinite-TTL HIT instance the disjunction
resolves to the HIT side, whose header is the fixed `max-age=86400`. -/
theorem spec_C4_witness :
    ((gs "HIT" = gs "HIT" ∧ gs "max-age=86400" = cacheControlHit (0 : Int))
      ∨ (gs "HIT" = gs "MISS" ∧ gs "max-age=86400" = cacheControlMiss (0 : Int)))
    ∧ cacheControlHit (0 : Int) = gs "max-age=86400" := by
  refine ⟨?_, spec_C4_amended.2.2.1 0 (by omega)⟩
  exact spec_C4_amended.1 ⟨gs "/d", false, 0, 100⟩ (gs "/")
    (fun _ => ReadResult.notExist) (fun md => some md) (fun _ => []) 99
    [(gs "/about", ⟨gs "x", -5⟩)] (gs "/about") (gs "HIT") (gs "max-age=86400")
    (gs "x") (by decide)

/-! ## Claim C5 -/

theorem handleRequest_no_redirect {cfg : SrvConfig} {cwd : GoStr}
    {fs : GoStr → ReadResult} {render : GoStr → Option GoStr}
    {pick : CacheMap → GoStr} {now : Int} {cache : CacheMap} {p : GoStr}
    (hcanon : normalizeReqPath p = p) (loc : GoStr) :
    (handleRequest cfg cwd fs render pick now cache p).result ≠ .redirect loc := by
  unfold handleRequest
  rw [if_neg (by simp [hcanon])]
  split
  · simp
  · exact serveDoc_result_ne_redirect loc

/-- C5: normalization at the HTTP surface is idempotent: an already-canonical
request path (cleaning with trailing-slash preservation fixes it) is never
answered with a redirect; and a rooted path containing a `..` segment or a
doubled separator is answered 301 whose Location is free of both, is itself
canonical, and a request for that Location is not redirected again. -/
theorem spec_C5 :
    ∀ (cfg : SrvConfig) (cwd : GoStr) (fs : GoStr → ReadResult)
      (render : GoStr → Option GoStr) (pick : CacheMap → GoStr)
      (now : Int) (cache : CacheMap) (p : GoStr),
      p.head? = some '/' →
      (normalizeReqPath p = p →
        ∀ loc, (handleRequest cfg cwd fs render pick now cache p).result
          ≠ .redirect loc)
      ∧ ((hasDotDotSeg p ∨ hasDoubleSlash p = true) →
          handleRequest cfg cwd fs render pick now cache p
            = ⟨.redirect (normalizeReqPath p), cache⟩
          ∧ ¬ hasDotDotSeg (normalizeReqPath p)
          ∧ hasDoubleSlash (normalizeReqPath p) = false
          ∧ normalizeReqPath (normalizeReqPath p) = normalizeReqPath p
          ∧ ∀ loc, (handleRequest cfg cwd fs render pick now cache
              (normalizeReqPath p)).result ≠ .redirect loc) := by
  intro cfg cwd fs render pick now cache p hp
  constructor
  · intro hcanon loc
    exact handleRequest_no_redirect hcanon loc
  · intro hdirty
    obtain ⟨hdd, hds, hidem⟩ := normalize_canon hp
    have hne : normalizeReqPath p ≠ p := normalize_ne_of_dirty hp hdirty
    refine ⟨?_, hdd, hds, hidem, fun loc => handleRequest_no_redirect hidem loc⟩
    unfold handleRequest
    rw [if_pos hne]

/-- C5 witness: the doubled-separator path `/a//b` is redirected to its
canonical form, which re-normalizes to itself. -/
theorem spec_C5_witness :
    handleRequest ⟨gs "/d", false, 60, 100⟩ (gs "/")
        (fun _ => ReadResult.notExist) (fun md => some md) (fun _ => []) 0 []
        (gs "/a//b")
      = ⟨.redirect (normalizeReqPath (gs "/a//b")), []⟩
    ∧ hasDoubleSlash (normalizeReqPath (gs "/a//b")) = false
    ∧ normalizeReqPath (normalizeReqPath (gs "/a//b"))
        = normalizeReqPath (gs "/a//b") := by
  have h := (spec_C5 ⟨gs "/d", false, 60, 100⟩ (gs "/")
    (fun _ => ReadResult.notExist) (fun md => some md) (fun _ => []) 0 []
    (gs "/a//b") (by decide)).2 (Or.inr (by decide))
  exact ⟨h.1, h.2.2.1, h.2.2.2.1⟩

/-! ## Claim C6 -/

/-- C6: one sweep removes exactly the entries whose `Expires` lies strictly
in the past at scan time — an expired key looks up to nothing afterwards, an
unexpired key still yields its unchanged item — and the lock trace is the
two-phase read-then-write pattern, with the write lock taken only when
something was collected. -/
theorem spec_C6 :
    ∀ (now : Int) (m : CacheMap), KeysNodup m →
      (∀ k, mapGet (cleanup now m).1 k
          = match mapGet m k with
            | some it => if now > it.Expires then none else some it
            | none => none)
      ∧ ((∃ kv ∈ m, now > kv.2.Expires) →
          (cleanup now m).2 = [.rlock, .runlock, .lock, .unlock])
      ∧ ((∀ kv ∈ m, ¬ now > kv.2.Expires) →
          (cleanup now m).2 = [.rlock, .runlock]) := by
  intro now m hnd
  have hfilter_iff : (m.filter (fun kv => decide (now > kv.2.Expires))).map Prod.fst = []
      ↔ ∀ kv ∈ m, ¬ now > kv.2.Expires := by
    rw [List.map_eq_nil_iff, List.filter_eq_nil_iff]
    simp
  refine ⟨?_, ?_, ?_⟩
  · intro k
    unfold cleanup
    by_cases hempty : (m.filter (fun kv => decide (now > kv.2.Expires))).map Prod.fst = []
    · rw [if_pos hempty]
      have hall := hfilter_iff.mp hempty
      cases hget : mapGet m k with
      | none => rfl
      | some it =>
        have hmem := mapGet_mem hget
        have hnotexp := hall (k, it) hmem
        simp [hnotexp]
    · rw [if_neg hempty]
      rw [mapGet_foldl_mapDelete]
      cases hget : mapGet m k with
      | none =>
        rw [if_neg (by
          intro hmem
          obtain ⟨v, hv, _⟩ := (mem_expiredKeys hnd).mp hmem
          rw [hget] at hv
          exact Option.noConfusion hv)]
      | some it =>
        by_cases hexp : now > it.Expires
        · rw [if_pos ((mem_expiredKeys hnd).mpr ⟨it, hget, hexp⟩)]
          simp [hexp]
        · rw [if_neg (by
            intro hmem
            obtain ⟨v, hv, hvexp⟩ := (mem_expiredKeys hnd).mp hmem
            rw [hget] at hv
            injection hv with hv
            subst hv
            exact hexp hvexp)]
          simp [hexp]
  · rintro ⟨kv, hmem, hexp⟩
    unfold cleanup
    rw [if_neg (by
      intro hempty
      exact (hfilter_iff.mp hempty) kv hmem hexp)]
  · intro hall
    unfold cleanup
    rw [if_pos (hfilter_iff.mpr hall)]

/-- C6 witness: at time 0 an entry expired at -1 is removed, an entry
expiring at 5 survives with unchanged content, and the sweep takes the write
lock after the read lock. -/
theorem spec_C6_witness :
    mapGet (cleanup 0 [(gs "/e", ⟨gs "E", -1⟩), (gs "/v", ⟨gs "V", 5⟩)]).1 (gs "/e")
      = none
    ∧ mapGet (cleanup 0 [(gs "/e", ⟨gs "E", -1⟩), (gs "/v", ⟨gs "V", 5⟩)]).1 (gs "/v")
      = some ⟨gs "V", 5⟩
    ∧ (cleanup 0 [(gs "/e", ⟨gs "E", -1⟩), (gs "/v", ⟨gs "V", 5⟩)]).2
      = [.rlock, .runlock, .lock, .unlock] := by
  have h := spec_C6 0 [(gs "/e", ⟨gs "E", -1⟩), (gs "/v", ⟨gs "V", 5⟩)]
    (by unfold KeysNodup; decide)
  refine ⟨(h.1 (gs "/e")).trans (by decide), (h.1 (gs "/v")).trans (by decide),
    h.2.1 ⟨(gs "/e", ⟨gs "E", -1⟩), by decide, by decide⟩⟩

/-! ## Claim C7 -/

/-- C7 counterexample: a Chmod-only event on `a.md` arms the debounced clear
in the code (`shouldClear` is true and the idle watcher arms its timer), yet
the claim's relevance condition — `.md` only on Write or Create, else
Rename/Remove — calls it irrelevant. -/
theorem spec_C7_counterexample :
    shouldClear ⟨gs "/d/a.md", [FsOp.chmod]⟩ = true
    ∧ relevantSpec ⟨gs "/d/a.md", [FsOp.chmod]⟩ = false
    ∧ (stepEvent ⟨none, 0, [(gs "/k", ⟨gs "c", 9⟩)]⟩ 0
        ⟨gs "/d/a.md", [FsOp.chmod]⟩).timer = some debounceDuration := by
  refine ⟨by decide, by decide, by decide⟩

/-- C7 amended: from an idle watcher (no pending timer), an event arms the
debounced whole-store clear iff it is relevant, where relevant means: not
hidden (base name starting with a dot) nor backup (name ending in a tilde),
and either the event's path ends in `.md` — under any operation, including
Chmod — or the event carries a Rename or Remove flag; ignored events leave
the state untouched. -/
theorem spec_C7_amended :
    ∀ (st : WState) (t : Int) (e : FsEvent),
      st.timer = none →
      ((stepEvent st t e).timer.isSome = true
        ↔ (eventIgnored e = false
            ∧ (endsWith e.Name (gs ".md") = true
                ∨ eventHas e .rename = true ∨ eventHas e .remove = true)))
      ∧ (eventIgnored e = true → stepEvent st t e = st) := by
  intro st t e htimer
  have hst1 : stepFire st t = st := by
    unfold stepFire
    rw [htimer]
  constructor
  · unfold stepEvent
    by_cases hclear : shouldClear e = true
    · rw [if_pos hclear]
      simp only [Option.isSome_some, true_iff]
      unfold shouldClear at hclear
      rw [Bool.and_eq_true, Bool.or_eq_true, Bool.or_eq_true] at hclear
      obtain ⟨hig, hrel⟩ := hclear
      refine ⟨by revert hig; cases eventIgnored e <;> simp, or_assoc.mp hrel⟩
    · rw [if_neg hclear, hst1, htimer]
      simp only [Option.isSome_none, Bool.false_eq_true, false_iff]
      intro ⟨hig, hrel⟩
      apply hclear
      unfold shouldClear
      rw [hig, Bool.and_eq_true, Bool.or_eq_true, Bool.or_eq_true]
      exact ⟨rfl, or_assoc.mpr hrel⟩
  · intro hig
    unfold stepEvent
    rw [if_neg (by
      unfold shouldClear
      rw [hig]
      simp), hst1]

/-- C7 amended witness: a plain write to `b.md` from the idle state arms the
timer, and a hidden-file event leaves the state untouched. -/
theorem spec_C7_witness :
    (stepEvent ⟨none, 0, []⟩ 0 ⟨gs "/d/b.md", [FsOp.write]⟩).timer.isSome = true
    ∧ stepEvent ⟨none, 0, []⟩ 0 ⟨gs "/d/.hidden", [FsOp.write]⟩ = ⟨none, 0, []⟩ := by
  refine ⟨?_, ?_⟩
  · exact (spec_C7_amended ⟨none, 0, []⟩ 0 ⟨gs "/d/b.md", [FsOp.write]⟩ rfl).1.mpr
      ⟨by decide, Or.inl (by decide)⟩
  · exact (spec_C7_amended ⟨none, 0, []⟩ 0 ⟨gs "/d/.hidden", [FsOp.write]⟩ rfl).2
      (by decide)

/-! ## Claim C8 -/

theorem watch_aux :
    ∀ (evts : List (Int × FsEvent)) (tprev : Int) (c : Nat) (m : CacheMap),
      (∀ te ∈ evts, shouldClear te.2 = true) →
      timesOk tprev evts →
      ∃ tl, evts.foldl (fun st te => stepEvent st te.1 te.2)
          ⟨some (tprev + debounceDuration), c, m⟩
        = ⟨some (tl + debounceDuration), c, m⟩ := by
  intro evts
  induction evts with
  | nil => intro tprev c m _ _; exact ⟨tprev, rfl⟩
  | cons te rest ih =>
    intro tprev c m hrel htimes
    obtain ⟨t, e⟩ := te
    obtain ⟨hle, hlt, htimes2⟩ := htimes
    have hnofire : ¬ (tprev + debounceDuration ≤ t) := by
      unfold debounceDuration at hlt ⊢
      omega
    have hfire : stepFire ⟨some (tprev + debounceDuration), c, m⟩ t
        = ⟨some (tprev + debounceDuration), c, m⟩ := by
      show (if tprev + debounceDuration ≤ t then WState.mk none (c + 1) []
          else ⟨some (tprev + debounceDuration), c, m⟩)
        = (⟨some (tprev + debounceDuration), c, m⟩ : WState)
      rw [if_neg hnofire]
    have hstep : stepEvent ⟨some (tprev + debounceDuration), c, m⟩ t e
        = ⟨some (t + debounceDuration), c, m⟩ := by
      unfold stepEvent
      rw [if_pos (hrel (t, e) (List.mem_cons_self _ _)), hfire]
    rw [List.foldl_cons, hstep]
    exact ih t c m (fun te hte => hrel te (List.mem_cons_of_mem _ hte)) htimes2

/-- C8: any burst of one or more relevant events in which each event follows
the previous one by less than the debounce window produces exactly one clear
— each event resets the pending timer, only the final timer fires unreset —
and that single clear empties the whole store. -/
theorem spec_C8 :
    ∀ (init : CacheMap) (t0 : Int) (e0 : FsEvent) (rest : List (Int × FsEvent)),
      shouldClear e0 = true →
      (∀ te ∈ rest, shouldClear te.2 = true) →
      timesOk t0 rest →
      (runWatch init ((t0, e0) :: rest)).clears = 1
      ∧ (runWatch init ((t0, e0) :: rest)).cache = [] := by
  intro init t0 e0 rest hrel0 hrel htimes
  have hstep0 : stepEvent ⟨none, 0, init⟩ t0 e0
      = ⟨some (t0 + debounceDuration), 0, init⟩ := by
    unfold stepEvent
    rw [if_pos hrel0]
    rfl
  obtain ⟨tl, hfold⟩ := watch_aux rest t0 0 init hrel htimes
  unfold runWatch
  rw [List.foldl_cons, hstep0, hfold]
  unfold finishWatch
  exact ⟨rfl, rfl⟩

/-- C8 witness: three writes to `a.md` at times 0, 50 and 99 coalesce into
exactly one clear, leaving the store empty. -/
theorem spec_C8_witness :
    (runWatch [(gs "/k", ⟨gs "c", 9⟩)]
        [(0, ⟨gs "/d/a.md", [FsOp.write]⟩), (50, ⟨gs "/d/a.md", [FsOp.write]⟩),
         (99, ⟨gs "/d/a.md", [FsOp.write]⟩)]).clears = 1
    ∧ (runWatch [(gs "/k", ⟨gs "c", 9⟩)]
        [(0, ⟨gs "/d/a.md", [FsOp.write]⟩), (50, ⟨gs "/d/a.md", [FsOp.write]⟩),
         (99, ⟨gs "/d/a.md", [FsOp.write]⟩)]).cache = [] := by
  exact spec_C8 [(gs "/k", ⟨gs "c", 9⟩)] 0 ⟨gs "/d/a.md", [FsOp.write]⟩
    [(50, ⟨gs "/d/a.md", [FsOp.write]⟩), (99, ⟨gs "/d/a.md", [FsOp.write]⟩)]
    (by decide)
    (by intro te hte; fin_cases hte <;> decide)
    (by refine ⟨by decide, by decide, by decide, by decide, trivial⟩)

/-! ## Claim C9 -/

/-- C9 counterexample: a panicking cleanup followed by a healthy tick — the
recover fires and the process survives, but zero sweeps happen: the tick
after the panic is never processed, whereas without the panic both ticks
sweep; this refutes "the task continues sweeping on its next tick". -/
theorem spec_C9_counterexample :
    (runCleaner [TickSig.tick true, TickSig.tick false]).recovered = true
    ∧ (runCleaner [TickSig.tick true, TickSig.tick false]).processCrashed = false
    ∧ (runCleaner [TickSig.tick true, TickSig.tick false]).sweeps = 0
    ∧ (runCleaner [TickSig.tick false, TickSig.tick false]).sweeps = 2 := by
  refine ⟨rfl, rfl, rfl, rfl⟩

theorem cleaner_aux :
    ∀ (pre rest : List TickSig) (n : Nat),
      (∀ s ∈ pre, s = TickSig.tick false) →
      cleanerLoop (pre ++ rest) n = cleanerLoop rest (n + pre.length) := by
  intro pre
  induction pre with
  | nil => intro rest n _; simp
  | cons s pre2 ih =>
    intro rest n hok
    have hs : s = TickSig.tick false := hok s (List.mem_cons_self _ _)
    subst hs
    show cleanerLoop (TickSig.tick false :: (pre2 ++ rest)) n = _
    rw [cleanerLoop, if_neg (by simp)]
    rw [ih rest (n + 1) (fun x hx => hok x (List.mem_cons_of_mem _ hx))]
    congr 1
    simp only [List.length_cons]
    omega

/-- C9 amended: after any run of successful ticks, a panicking cleanup is
caught by the deferred recover — logged, the process does not crash — but
the cleaner goroutine returns: the sweeps performed stay at the pre-panic
count no matter what signals follow; and a cancellation signal likewise ends
the loop promptly with no recover and no crash. -/
theorem spec_C9_amended :
    ∀ (pre post : List TickSig),
      (∀ s ∈ pre, s = TickSig.tick false) →
      runCleaner (pre ++ TickSig.tick true :: post)
        = ⟨pre.length, true, false⟩
      ∧ runCleaner (pre ++ TickSig.done :: post)
        = ⟨pre.length, false, false⟩ := by
  intro pre post hok
  unfold runCleaner
  rw [cleaner_aux pre _ 0 hok, cleaner_aux pre _ 0 hok]
  constructor
  · rw [cleanerLoop, if_pos rfl]
    simp
  · rw [cleanerLoop]
    simp

/-- C9 amended witness: one good tick, then a panic, then another good tick:
one sweep total, recovered, process alive. -/
theorem spec_C9_witness :
    runCleaner [TickSig.tick false, TickSig.tick true, TickSig.tick false]
      = ⟨1, true, false⟩ := by
  have h := (spec_C9_amended [TickSig.tick false] [TickSig.tick false]
    (by intro s hs; fin_cases hs; rfl)).1
  simpa using h

/-! ## Claim C10 -/

/-- C10: in strict-suffix mode every already-canonical request path ending
in `/` — the root `/` included — is answered 404 with the cache untouched:
the `.html` requirement is tested before the default document name is
appended, so no directory-style URL is ever served. -/
theorem spec_C10 :
    ∀ (cfg : SrvConfig) (cwd : GoStr) (fs : GoStr → ReadResult)
      (render : GoStr → Option GoStr) (pick : CacheMap → GoStr)
      (now : Int) (cache : CacheMap) (p : GoStr),
      cfg.strictHtmlUrl = true →
      normalizeReqPath p = p →
      endsWith p (gs "/") = true →
      handleRequest cfg cwd fs render pick now cache p = ⟨.notFound, cache⟩ := by
  intro cfg cwd fs render pick now cache p hstrict hcanon hslash
  unfold handleRequest
  rw [if_neg (by simp [hcanon])]
  rw [if_pos ⟨hstrict, not_endsWith_html_of_slash hslash⟩]

/-- C10 witness: the root path `/` in strict mode is 404, with a filesystem
holding a perfectly good `/d/index.md`. -/
theorem spec_C10_witness :
    handleRequest ⟨gs "/d", true, 60, 100⟩ (gs "/")
        (fun q => if q = gs "/d/index.md" then .ok (gs "# Top") else .notExist)
        (fun md => some md) (fun _ => []) 0 [] (gs "/")
      = ⟨.notFound, []⟩ :=
  spec_C10 ⟨gs "/d", true, 60, 100⟩ (gs "/")
    (fun q => if q = gs "/d/index.md" then .ok (gs "# Top") else .notExist)
    (fun md => some md) (fun _ => []) 0 [] (gs "/")
    rfl (by decide) (by decide)
